import Mathlib

/-!
# Verification of the ffmpeg-batch job queue and video processor

Shallow embedding of `src/job_queue.py` and `src/video_processor.py`.

Conventions of the embedding:
* Python `datetime` values are abstract tick counters (`Nat`), passed in as
  parameters wherever the source calls `datetime.now()`.
* Python `float` arithmetic on progress percentages and durations is modelled
  with exact rationals (`ℚ`); the source only divides, multiplies and takes
  `min`, all of which are exact on the values involved.
* Python strings are Lean `String`s; `pathlib.Path` accessors (`parent`,
  `name`, `stem`, `suffix`, `with_suffix`) are modelled on the raw string,
  splitting on `'/'` and `'.'` exactly as pathlib's pure-path accessors do
  (no normalisation of duplicate slashes is performed; the claims under
  verification do not depend on it).
* Python `str.lower()` is modelled charwise (`Char.toLower`), which agrees
  with CPython on the ASCII strings involved.
* `uuid.uuid4()` job identifiers are abstract `Nat`s; their uniqueness is a
  hypothesis on the job-submission step of the transition system.
-/

/-- `JobStatus` from `job_queue.py`. -/
inductive JobStatus where
  | pending
  | processing
  | completed
  | failed
  | cancelled
deriving DecidableEq, Repr

/-- The result dictionary a processor operation returns (`_execute_ffmpeg`
builds either `{"success": True, "processing_time": …}` or
`{"success": False, "error": …}`). -/
structure OpResult where
  success : Bool
  processingTime : Option ℚ := none
  error : Option String := none
deriving DecidableEq, Repr

/-- The `Job` object from `job_queue.py` (mutable fields of the Python class
become record fields; timestamps are abstract `Nat` ticks). -/
structure Job where
  id : Nat
  inputFile : String
  operation : String
  parameters : List (String × String)
  outputFile : String
  status : JobStatus
  progress : ℚ
  createdAt : Nat
  startedAt : Option Nat
  completedAt : Option Nat
  error : Option String
  result : Option OpResult
deriving DecidableEq, Repr

/-! ## A model of the `pathlib` accessors used by the source

All functions are defined on `List Char` first (suffix/prefix splitting on
the reversed character list), then wrapped for `String`. -/

/-- The reversed final path component: everything after the last `'/'`. -/
def nameRevL (s : List Char) : List Char :=
  s.reverse.takeWhile (fun c => c ≠ '/')

/-- `Path(s).name`: the final path component. -/
def pathNameL (s : List Char) : List Char :=
  (nameRevL s).reverse

/-- Everything up to and including the last `'/'` (empty if there is none);
`s = pathDirL s ++ pathNameL s`. -/
def pathDirL (s : List Char) : List Char :=
  (s.reverse.dropWhile (fun c => c ≠ '/')).reverse

/-- `Path(n).suffix` on a file name `n` (no slashes): `n[i:]` where `i` is
the index of the last dot, provided `0 < i < len - 1`, else empty.  This is
exactly the pathlib definition. -/
def pathSuffixOfNameL (n : List Char) : List Char :=
  if (n.reverse.dropWhile (fun c => c ≠ '.')).length ≤ 1
      ∨ n.reverse.takeWhile (fun c => c ≠ '.') = [] then []
  else '.' :: (n.reverse.takeWhile (fun c => c ≠ '.')).reverse

/-- `Path(n).stem` on a file name `n`: `n[:i]` under the same side condition
as `pathSuffixOfNameL`, else the whole name. -/
def pathStemOfNameL (n : List Char) : List Char :=
  if (n.reverse.dropWhile (fun c => c ≠ '.')).length ≤ 1
      ∨ n.reverse.takeWhile (fun c => c ≠ '.') = [] then n
  else ((n.reverse.dropWhile (fun c => c ≠ '.')).tail).reverse

/-- `Path(s).name` for a full path string. -/
def pathName (s : String) : String :=
  ⟨pathNameL s.data⟩

/-- `Path(s).suffix` for a full path string. -/
def pathSuffix (s : String) : String :=
  ⟨pathSuffixOfNameL (pathNameL s.data)⟩

/-- `Path(s).stem` for a full path string. -/
def pathStem (s : String) : String :=
  ⟨pathStemOfNameL (pathNameL s.data)⟩

/-- `str(Path(s).with_suffix(ext))`: directory part unchanged, name replaced
by `stem + ext`. -/
def pathWithSuffix (s ext : String) : String :=
  ⟨pathDirL s.data ++ pathStemOfNameL (pathNameL s.data) ++ ext.data⟩

/-- `str(Path(s).parent / newName)`: the directory part (with its trailing
slash) prepended to the new name; when `s` has no directory part the parent
is `"."` and `str` drops it, leaving just the name. -/
def pathParentJoin (s newName : String) : String :=
  ⟨pathDirL s.data ++ newName.data⟩

/-- Python `str.lower()`, charwise (exact on ASCII). -/
def strToLower (s : String) : String :=
  ⟨s.data.map Char.toLower⟩

/-- Python `dict.get(k, d)` on a parameters dictionary. -/
def dictGet (params : List (String × String)) (k d : String) : String :=
  (params.lookup k).getD d

example : pathName "a/b/c.mp4" = "c.mp4" := by decide
example : pathSuffix "a/b/c.mp4" = ".mp4" := by decide
example : pathStem "a/b/c.mp4" = "c" := by decide
example : pathSuffix "a/.bashrc" = "" := by decide
example : pathStem "a/.bashrc" = ".bashrc" := by decide
example : pathSuffix "a/b." = "" := by decide
example : pathStem "x.tar.gz" = "x.tar" := by decide
example : pathWithSuffix "a/b.mp4" ".png" = "a/b.png" := by decide
example : pathWithSuffix "b" ".png" = "b.png" := by decide
example : pathParentJoin "a/b.mp4" "x.gif" = "a/x.gif" := by decide
example : pathParentJoin "b.mp4" "x.gif" = "x.gif" := by decide
example : strToLower "JPeG" = "jpeg" := by decide

/-! ## `Job.__init__` and `Job._generate_output_path` (`job_queue.py`) -/

/-- The extension chosen by `Job._generate_output_path` for
`generate_thumbnail`: `{"webp": "webp", "jpg": "jpg", "jpeg": "jpg",
"png": "png"}.get(image_format.lower(), "webp")`. -/
def thumbFormatExt (imageFormat : String) : String :=
  if strToLower imageFormat = "webp" then "webp"
  else if strToLower imageFormat = "jpg" then "jpg"
  else if strToLower imageFormat = "jpeg" then "jpg"
  else if strToLower imageFormat = "png" then "png"
  else "webp"

/-- `Job._generate_output_path(input_file, operation)`; `timestamp` stands
for `datetime.now().strftime("%Y%m%d_%H%M%S")`. -/
def generateOutputPath (parameters : List (String × String))
    (inputFile operation timestamp : String) : String :=
  let stem := pathStem inputFile
  if operation = "generate_thumbnail" then
    let imageFormat := dictGet parameters "image_format" "webp"
    let ext := thumbFormatExt imageFormat
    pathParentJoin inputFile (stem ++ "_" ++ operation ++ "_" ++ timestamp ++ "." ++ ext)
  else if operation = "create_gif" then
    pathParentJoin inputFile (stem ++ "_" ++ operation ++ "_" ++ timestamp ++ ".gif")
  else if operation = "extract_audio" then
    let audioFormat := dictGet parameters "audio_format" "mp3"
    pathParentJoin inputFile (stem ++ "_" ++ operation ++ "_" ++ timestamp ++ "." ++ audioFormat)
  else
    pathParentJoin inputFile (stem ++ "_" ++ operation ++ "_" ++ timestamp ++ pathSuffix inputFile)

/-- `Job.__init__`.  `outputFile or self._generate_output_path(...)` uses
Python truthiness: both `None` and the empty string fall through to the
generated path. -/
def mkJob (id : Nat) (inputFile operation : String)
    (parameters : List (String × String)) (outputFile : Option String)
    (createdAt : Nat) (timestamp : String) : Job :=
  { id := id
    inputFile := inputFile
    operation := operation
    parameters := parameters
    outputFile :=
      match outputFile with
      | some o =>
        if o = "" then generateOutputPath parameters inputFile operation timestamp else o
      | none => generateOutputPath parameters inputFile operation timestamp
    status := .pending
    progress := 0
    createdAt := createdAt
    startedAt := none
    completedAt := none
    error := none
    result := none }

/-! ## `video_processor.py`: thumbnail helpers -/

/-- `VideoProcessor._correct_thumbnail_extension`'s
`extension_map.get(image_format.lower(), ".webp")`. -/
def thumbCorrectExt (imageFormat : String) : String :=
  if strToLower imageFormat = "webp" then ".webp"
  else if strToLower imageFormat = "jpg" then ".jpg"
  else if strToLower imageFormat = "jpeg" then ".jpg"
  else if strToLower imageFormat = "png" then ".png"
  else ".webp"

/-- `VideoProcessor._correct_thumbnail_extension(output_path, image_format)`. -/
def correctThumbnailExtension (outputPath imageFormat : String) : String :=
  let correctExt := thumbCorrectExt imageFormat
  if strToLower (pathSuffix outputPath) ≠ correctExt then
    pathWithSuffix outputPath correctExt
  else
    outputPath

/-- `VideoProcessor._build_thumbnail_filter(width, height, image_fit)`. -/
def buildThumbnailFilter (width height imageFit : String) : String :=
  if imageFit = "cover" then
    "scale=" ++ width ++ ":" ++ height ++ ":force_original_aspect_ratio=increase,crop="
      ++ width ++ ":" ++ height ++ ":(iw-" ++ width ++ ")/2:(ih-" ++ height ++ ")/2"
  else if imageFit = "contain" then
    "scale=" ++ width ++ ":" ++ height ++ ":force_original_aspect_ratio=decrease,pad="
      ++ width ++ ":" ++ height ++ ":(ow-iw)/2:(oh-ih)/2"
  else
    "scale=" ++ width ++ ":" ++ height

/-- `VideoProcessor._get_thumbnail_quality_args(image_format, quality)`.
`int()` truncation of `31 - quality*29/100` is a floor since the operand is
positive for `quality ∈ [0, 100]`. -/
def getThumbnailQualityArgs (imageFormat : String) (quality : Int) : List String :=
  let q := max 0 (min 100 quality)
  if strToLower imageFormat = "png" then []
  else if strToLower imageFormat = "webp" then ["-quality", toString q]
  else
    let jpegQuality : Int := ⌊(31 : ℚ) - (q : ℚ) * 29 / 100⌋
    let jpegQuality' := max 2 (min 31 jpegQuality)
    ["-q:v", toString jpegQuality']

/-- `size.replace(":", "x")`: single-character replacement, done charwise. -/
def sizeNormalize (size : String) : String :=
  ⟨size.data.map (fun c => if c = ':' then 'x' else c)⟩

/-- Splitting a character list on a separator character, Python
`str.split` style (`"axb".split("x") == ["a", "b"]`, `"".split("x") == [""]`). -/
def splitOnCharL (sep : Char) : List Char → List (List Char)
  | [] => [[]]
  | c :: cs =>
    match splitOnCharL sep cs with
    | [] => [[]]
    | g :: gs => if c = sep then [] :: g :: gs else (c :: g) :: gs

/-- `width, height = size.replace(":", "x").split("x")`: `some (w, h)` when
the unpacking succeeds, `none` when it raises `ValueError`. -/
def parseSize (size : String) : Option (String × String) :=
  match splitOnCharL 'x' (sizeNormalize size).data with
  | [w, h] => some (⟨w⟩, ⟨h⟩)
  | _ => none

example : parseSize "1280x720" = some ("1280", "720") := by decide
example : parseSize "1280:720" = some ("1280", "720") := by decide
example : parseSize "1280" = none := by decide

/-- `VideoProcessor.generate_thumbnail`: the argv list handed to
`subprocess.Popen` via `_execute_ffmpeg` (`none` when the `size` unpacking
raises before any command is built). -/
def generateThumbnailCmd (inputPath outputPath timestamp size imageFit
    imageFormat : String) (imageQuality : Int) : Option (List String) :=
  match parseSize size with
  | none => none
  | some (width, height) =>
    let vfFilter := buildThumbnailFilter width height imageFit
    let outputPath' := correctThumbnailExtension outputPath imageFormat
    let qualityArgs := getThumbnailQualityArgs imageFormat imageQuality
    some (["ffmpeg", "-i", inputPath, "-ss", timestamp, "-vframes", "1", "-vf", vfFilter]
      ++ qualityArgs ++ ["-progress", "pipe:1", "-y", outputPath'])

/-! ## `VideoProcessor._execute_ffmpeg`: progress parsing and result -/

/-- Literal-match test used by the progress regex scan. -/
def startsWithL : List Char → List Char → Bool
  | [], _ => true
  | _ :: _, [] => false
  | p :: ps, c :: cs => p = c && startsWithL ps cs

/-- Decimal digits to a number (the regex capture is `\d+`). -/
def digitsToNat (l : List Char) : Nat :=
  l.foldl (fun n c => n * 10 + (c.toNat - '0'.toNat)) 0

/-- `re.search(r'out_time_ms=(\d+)', line)` on the character list: scan left
to right for the literal followed by at least one digit; the capture is the
maximal digit run. -/
def searchOutTimeMsL : List Char → Option Nat
  | [] => none
  | c :: rest =>
    if startsWithL "out_time_ms=".data (c :: rest) then
      let digits := ((c :: rest).drop 12).takeWhile Char.isDigit
      if digits = [] then searchOutTimeMsL rest else some (digitsToNat digits)
    else
      searchOutTimeMsL rest

/-- `re.search(r'out_time_ms=(\d+)', line)`, returning the captured number. -/
def parseOutTimeMs (line : String) : Option Nat :=
  searchOutTimeMsL line.data

example : parseOutTimeMs "out_time_ms=2500000" = some 2500000 := by decide
example : parseOutTimeMs "frame=3 out_time_ms=7 x" = some 7 := by decide
example : parseOutTimeMs "out_time=00:00:02" = none := by decide
example : parseOutTimeMs "out_time_ms=x out_time_ms=5" = some 5 := by decide

/-- The percentage computed for one matched progress line:
`current_sec = current_ms / 1_000_000`;
`min(100, (current_sec / total_duration) * 100) if total_duration > 0 else 0`. -/
def progressPct (totalDuration : ℚ) (currentMs : Nat) : ℚ :=
  if 0 < totalDuration then
    min 100 ((currentMs : ℚ) / 1000000 / totalDuration * 100)
  else 0

/-- The sequence of percentages handed to `progress_callback` by the
progress-parsing loop of `_execute_ffmpeg`, in order. -/
def deliveredProgress (totalDuration : ℚ) (lines : List String) : List ℚ :=
  lines.filterMap (fun l => (parseOutTimeMs l).map (progressPct totalDuration))

/-- `VideoProcessor._execute_ffmpeg`, with the environment made explicit:
`probe` is the duration from `get_video_info` (`none` when the probe
raises), `lines` the stdout of the external process, `returncode` its exit
status, `elapsed` the wall-clock processing time.  Returns the percentages
delivered to the callback together with the result dictionary.  When the
probe raises, no process is spawned and no callback runs. -/
def executeFfmpeg (probe : Option ℚ) (lines : List String) (returncode : Int)
    (elapsed : ℚ) : List ℚ × OpResult :=
  match probe with
  | none => ([], { success := false, error := some "probe failed" })
  | some totalDuration =>
    (deliveredProgress totalDuration lines,
      if returncode ≠ 0 then
        { success := false,
          error := some ("returned non-zero exit status " ++ toString returncode) }
      else
        { success := true, processingTime := some elapsed })

/-! ## `JobQueue._process_job` as a per-job function

`_process_job` mutates the dequeued job: it marks it `PROCESSING` and stamps
`started_at`, resolves `getattr(processor, job.operation, None)` (`resolved`
models the truthiness test), lets the handler run — during which
`update_progress` assignments land in `job.progress` in order — and finally
marks the job `COMPLETED` or `FAILED`.  The handler's behaviour is the pair
of its reported progress values `ups` and its outcome `oc` (`Except.error`
models an exception escaping the executor call). -/

/-- The successive `job.progress = progress` assignments made by
`update_progress`. -/
def applyProgressUpdates (j : Job) (ups : List ℚ) : Job :=
  ups.foldl (fun j p => { j with progress := p }) j

/-- The net effect of `JobQueue._process_job` on the dequeued job; `t` and
`t'` are the `datetime.now()` ticks for `started_at` and `completed_at`. -/
def processJobRun (j : Job) (t t' : Nat) (resolved : Bool) (ups : List ℚ)
    (oc : Except String OpResult) : Job :=
  let j1 : Job := { j with status := .processing, startedAt := some t }
  let j2 : Job :=
    if resolved then
      let jp := applyProgressUpdates j1 ups
      match oc with
      | .ok r =>
        if r.success then
          { jp with status := .completed, progress := 100, result := some r }
        else
          { jp with status := .failed, error := some (r.error.getD "Unknown error") }
      | .error e => { jp with status := .failed, error := some e }
    else
      { j1 with status := .failed, error := some ("Unknown operation: " ++ j.operation) }
  { j2 with completedAt := some t' }

/-! ## `JobQueue`: store, queue, stats and the transition system

The queue of `Job` references is modelled as a FIFO list of job ids (the
store never deletes, and ids are unique, so the reference and the store
entry coincide).  The `stats` counters are Python ints (`Int`). -/

/-- The attributes `getattr(processor, job.operation, None)` can resolve on
`VideoProcessor` (the exact membership of this list is irrelevant to the
theorems; it only decides which worker step fires). -/
def knownOperations : List String :=
  ["ffmpeg_path", "ffprobe_path", "get_video_info", "transcode", "compress",
   "add_watermark", "generate_thumbnail", "_build_thumbnail_filter",
   "_correct_thumbnail_extension", "_get_thumbnail_quality_args",
   "extract_audio", "create_gif", "concatenate_videos", "trim_video",
   "_execute_ffmpeg"]

/-- Truthiness of `getattr(processor, op, None)`. -/
def resolvesOp (op : String) : Bool :=
  knownOperations.contains op

/-- The mutable state of a `JobQueue` (store, FIFO queue, the multiset of
jobs currently inside `_process_job` after their status was set, and the
`stats` counters). -/
structure QueueState where
  jobs : List Job
  queue : List Nat
  running : List Nat
  totalJobs : Int
  completedJobs : Int
  failedJobs : Int
  processingJobs : Int
deriving DecidableEq, Repr

/-- `JobQueue.__init__`: empty store and queue, zeroed stats. -/
def initState : QueueState :=
  { jobs := [], queue := [], running := [], totalJobs := 0,
    completedJobs := 0, failedJobs := 0, processingJobs := 0 }

/-- `self.jobs.get(job_id)`. -/
def findJob (s : QueueState) (id : Nat) : Option Job :=
  s.jobs.find? (fun j => j.id = id)

/-- In-place mutation of the store entry with the given id. -/
def updateJobs (jobs : List Job) (id : Nat) (f : Job → Job) : List Job :=
  jobs.map (fun j => if j.id = id then f j else j)

/-- `JobQueue.cancel_job(job_id)`: the updated state and the returned bool. -/
def cancelRun (s : QueueState) (id : Nat) : QueueState × Bool :=
  match findJob s id with
  | some j =>
    if j.status = .pending then
      ({ s with jobs := updateJobs s.jobs id (fun j => { j with status := .cancelled }) }, true)
    else (s, false)
  | none => (s, false)

/-- Lines 187–189 of `_process_job`: mark processing, stamp `started_at`. -/
def beginJob (t : Nat) (j : Job) : Job :=
  { j with status := .processing, startedAt := some t }

/-- The success branch of `_process_job` plus its `finally`. -/
def completeJob (t' : Nat) (r : OpResult) (j : Job) : Job :=
  { j with status := .completed, progress := 100, result := some r, completedAt := some t' }

/-- The except branch of `_process_job` plus its `finally`. -/
def failJob (t' : Nat) (e : String) (j : Job) : Job :=
  { j with status := .failed, error := some e, completedAt := some t' }

@[simp] theorem beginJob_status (t : Nat) (j : Job) :
    (beginJob t j).status = .processing := rfl

@[simp] theorem completeJob_status (t' : Nat) (r : OpResult) (j : Job) :
    (completeJob t' r j).status = .completed := rfl

@[simp] theorem failJob_status (t' : Nat) (e : String) (j : Job) :
    (failJob t' e j).status = .failed := rfl

/-- One atomic transition of the system: job submission (`add_job` on a
freshly constructed `Job` with a fresh uuid), cancellation (`cancel_job`),
a worker skipping a cancelled job, a worker entering `_process_job`
(atomically up to the `run_in_executor` suspension point — for an
unresolvable operation the whole of `_process_job` runs without suspending),
a progress-callback assignment from the executor thread, the worker
resuming after the handler returned or raised, and abandonment: `stop()`
cancelling a worker suspended at the `run_in_executor` await, where the
`asyncio.CancelledError` bypasses `except Exception` (it is a
`BaseException` on Python ≥ 3.8) but the `finally` of lines 230–232 still
stamps `completed_at` and decrements `processing_jobs`, leaving the job
Processing forever.  The progress-callback step is guarded by the job's
stored status being Processing rather than by membership in the in-flight
list, because the executor thread of an abandoned job keeps running and
keeps writing `job.progress`; in reachable states the Processing jobs are
exactly the in-flight and abandoned ones. -/
inductive Step : QueueState → QueueState → Prop where
  | addJob (s : QueueState) (j : Job)
      (hfresh : ∀ j' ∈ s.jobs, j'.id ≠ j.id)
      (hpending : j.status = .pending) (hprogress : j.progress = 0)
      (hstarted : j.startedAt = none) (hresult : j.result = none) :
      Step s { s with
               jobs := j :: s.jobs
               queue := s.queue ++ [j.id]
               totalJobs := s.totalJobs + 1 }
  | cancelJob (s : QueueState) (id : Nat) :
      Step s (cancelRun s id).1
  | workerSkip (s : QueueState) (id : Nat) (rest : List Nat) (j : Job)
      (hq : s.queue = id :: rest) (hj : findJob s id = some j)
      (hcancelled : j.status = .cancelled) :
      Step s { s with queue := rest }
  | workerBegin (s : QueueState) (id : Nat) (rest : List Nat) (j : Job) (t : Nat)
      (hq : s.queue = id :: rest) (hj : findJob s id = some j)
      (hnc : j.status ≠ .cancelled) (hres : resolvesOp j.operation = true) :
      Step s { s with
               jobs := updateJobs s.jobs id (beginJob t)
               queue := rest
               running := id :: s.running
               processingJobs := s.processingJobs + 1 }
  | workerBeginUnknown (s : QueueState) (id : Nat) (rest : List Nat) (j : Job)
      (t t' : Nat)
      (hq : s.queue = id :: rest) (hj : findJob s id = some j)
      (hnc : j.status ≠ .cancelled) (hres : resolvesOp j.operation = false) :
      Step s { s with
               jobs := updateJobs s.jobs id
                 (fun x => failJob t' ("Unknown operation: " ++ x.operation) (beginJob t x))
               queue := rest
               failedJobs := s.failedJobs + 1 }
  | progressUpdate (s : QueueState) (id : Nat) (p : ℚ) (j : Job)
      (hj : findJob s id = some j) (hs : j.status = .processing) :
      Step s { s with jobs := updateJobs s.jobs id (fun x => { x with progress := p }) }
  | finishSuccess (s : QueueState) (id : Nat) (r : OpResult) (t' : Nat)
      (hr : id ∈ s.running) (hs : r.success = true) :
      Step s { s with
               jobs := updateJobs s.jobs id (completeJob t' r)
               running := s.running.erase id
               completedJobs := s.completedJobs + 1
               processingJobs := s.processingJobs - 1 }
  | finishFailure (s : QueueState) (id : Nat) (e : String) (t' : Nat)
      (hr : id ∈ s.running) :
      Step s { s with
               jobs := updateJobs s.jobs id (failJob t' e)
               running := s.running.erase id
               failedJobs := s.failedJobs + 1
               processingJobs := s.processingJobs - 1 }
  | workerAbandon (s : QueueState) (id : Nat) (t' : Nat) (hr : id ∈ s.running) :
      Step s { s with
               jobs := updateJobs s.jobs id (fun x => { x with completedAt := some t' })
               running := s.running.erase id
               processingJobs := s.processingJobs - 1 }

/-- States reachable from a freshly constructed queue. -/
def Reachable (s : QueueState) : Prop :=
  Relation.ReflTransGen Step initState s

/-- Number of stored jobs with the given status. -/
def countStatus (jobs : List Job) (st : JobStatus) : Nat :=
  (jobs.filter (fun j => j.status = st)).length

/-- A terminal status in the sense of the spec's state machine. -/
def isTerminal (st : JobStatus) : Prop :=
  st = .completed ∨ st = .failed ∨ st = .cancelled

instance (st : JobStatus) : Decidable (isTerminal st) := by
  unfold isTerminal; infer_instance

/-! ### Store helper lemmas -/

theorem findJob_id {s : QueueState} {id : Nat} {j : Job}
    (h : findJob s id = some j) : j.id = id := by
  have := List.find?_some h
  simpa using this

theorem findJob_mem {s : QueueState} {id : Nat} {j : Job}
    (h : findJob s id = some j) : j ∈ s.jobs :=
  List.mem_of_find?_eq_some h

theorem updateJobs_of_not_mem {jobs : List Job} {id : Nat} (f : Job → Job)
    (h : ∀ x ∈ jobs, x.id ≠ id) : updateJobs jobs id f = jobs := by
  induction jobs with
  | nil => rfl
  | cons a l ih =>
    have ha : a.id ≠ id := h a (List.mem_cons_self a l)
    have ih' := ih (fun x hx => h x (List.mem_cons_of_mem a hx))
    simp only [updateJobs, List.map_cons] at ih' ⊢
    rw [if_neg ha, ih']

theorem map_id_updateJobs {jobs : List Job} {id : Nat} {f : Job → Job}
    (hid : ∀ j, (f j).id = j.id) :
    (updateJobs jobs id f).map Job.id = jobs.map Job.id := by
  unfold updateJobs
  rw [List.map_map]
  apply List.map_congr_left
  intro a _
  by_cases h : a.id = id <;> simp [h, hid]

theorem find?_updateJobs {jobs : List Job} {id : Nat} {f : Job → Job}
    (hid : ∀ j, (f j).id = j.id) (p : Nat) :
    (updateJobs jobs id f).find? (fun j => j.id = p)
      = (jobs.find? (fun j => j.id = p)).map (fun j => if j.id = id then f j else j) := by
  induction jobs with
  | nil => rfl
  | cons a l ih =>
    have hhead : (if a.id = id then f a else a).id = a.id := by
      by_cases hh : a.id = id <;> simp [hh, hid]
    simp only [updateJobs, List.map_cons] at ih ⊢
    by_cases h : a.id = p
    · rw [List.find?_cons_of_pos _ (by simp only [hhead]; simp [h]),
        List.find?_cons_of_pos _ (by simp [h])]
      simp
    · rw [List.find?_cons_of_neg _ (by simp only [hhead]; simp [h]),
        List.find?_cons_of_neg _ (by simp [h])]
      exact ih

theorem countStatus_cons (j : Job) (l : List Job) (st : JobStatus) :
    countStatus (j :: l) st = (if j.status = st then 1 else 0) + countStatus l st := by
  by_cases h : j.status = st <;> simp [countStatus, List.filter_cons, h, Nat.add_comm]

theorem countStatus_updateJobs {jobs : List Job} {id : Nat} {f : Job → Job} {j : Job}
    (_hid : ∀ x, (f x).id = x.id)
    (hnd : (jobs.map Job.id).Nodup)
    (hj : jobs.find? (fun x => x.id = id) = some j) (st : JobStatus) :
    countStatus (updateJobs jobs id f) st + (if j.status = st then 1 else 0)
      = countStatus jobs st + (if (f j).status = st then 1 else 0) := by
  induction jobs with
  | nil => simp [List.find?] at hj
  | cons a l ih =>
    simp only [List.map_cons, List.nodup_cons] at hnd
    obtain ⟨hna, hnl⟩ := hnd
    by_cases h : a.id = id
    · rw [List.find?_cons_of_pos _ (by simp [h])] at hj
      have hja : j = a := (Option.some.inj hj).symm
      subst hja
      have hl : ∀ x ∈ l, x.id ≠ id := by
        intro x hx hxid
        exact hna (h ▸ hxid ▸ List.mem_map_of_mem Job.id hx)
      have hupd : updateJobs (j :: l) id f = f j :: l := by
        simp only [updateJobs, List.map_cons, if_pos h]
        rw [show List.map (fun x => if x.id = id then f x else x) l
              = updateJobs l id f from rfl, updateJobs_of_not_mem f hl]
      rw [hupd, countStatus_cons, countStatus_cons]
      by_cases h1 : (f j).status = st <;> by_cases h2 : j.status = st <;>
        simp [h1, h2] <;> omega
    · rw [List.find?_cons_of_neg _ (by simp [h])] at hj
      have hstep := ih hnl hj
      have hupd : updateJobs (a :: l) id f = a :: updateJobs l id f := by
        simp only [updateJobs, List.map_cons, if_neg h]
      rw [hupd, countStatus_cons, countStatus_cons]
      omega

theorem findJob_cons {s s' : QueueState} {j : Job}
    (hj : s'.jobs = j :: s.jobs) (p : Nat) :
    findJob s' p = if j.id = p then some j else findJob s p := by
  unfold findJob
  rw [hj]
  by_cases hp : j.id = p
  · rw [List.find?_cons_of_pos _ (by simp [hp]), if_pos hp]
  · rw [List.find?_cons_of_neg _ (by simp [hp]), if_neg hp]

theorem findJob_updateJobs {s s' : QueueState} (id : Nat) (f : Job → Job)
    (hj : s'.jobs = updateJobs s.jobs id f) (hid : ∀ j, (f j).id = j.id) (p : Nat) :
    findJob s' p = (findJob s p).map (fun j => if j.id = id then f j else j) := by
  unfold findJob
  rw [hj]
  exact find?_updateJobs hid p

theorem findJob_unique {s : QueueState} {p q : Nat} {j1 j2 : Job}
    (h1 : findJob s p = some j1) (h2 : findJob s q = some j2) (he : p = q) :
    j1 = j2 := by
  subst he
  rw [h1] at h2
  exact Option.some.inj h2

theorem countStatus_partition (jobs : List Job) :
    countStatus jobs .pending + countStatus jobs .processing + countStatus jobs .completed
      + countStatus jobs .failed + countStatus jobs .cancelled = jobs.length := by
  induction jobs with
  | nil => rfl
  | cons a l ih =>
    simp only [countStatus_cons, List.length_cons]
    cases h : a.status <;> simp [h] <;> omega

/-! ### The reachability invariant of the queue -/

/-- Invariant maintained by every `Step`: store ids are unique, FIFO and
running lists are duplicate-free, every queued job is still pending or
cancelled, every running job is processing, the `processing_jobs` counter
equals the number of in-flight jobs (which cannot exceed the number of
Processing-status jobs — abandonment leaves a Processing job that is no
longer in flight), and the completed/failed/total counters equal the
corresponding store censuses. -/
structure QueueInv (s : QueueState) : Prop where
  idsNodup : (s.jobs.map Job.id).Nodup
  queueNodup : s.queue.Nodup
  runningNodup : s.running.Nodup
  queueStatus : ∀ id ∈ s.queue, ∃ j, findJob s id = some j ∧
    (j.status = .pending ∨ j.status = .cancelled)
  runningStatus : ∀ id ∈ s.running, ∃ j, findJob s id = some j ∧ j.status = .processing
  procRun : s.processingJobs = (s.running.length : Int)
  runningLeProc : s.running.length ≤ countStatus s.jobs .processing
  completedCount : s.completedJobs = (countStatus s.jobs .completed : Int)
  failedCount : s.failedJobs = (countStatus s.jobs .failed : Int)
  totalCount : s.totalJobs = (s.jobs.length : Int)

theorem inv_init : QueueInv initState := by
  refine ⟨?_, ?_, ?_, ?_, ?_, ?_, ?_, ?_, ?_, ?_⟩ <;> simp [initState, countStatus]

theorem inv_step {s s' : QueueState} (hinv : QueueInv s) (hstep : Step s s') :
    QueueInv s' := by
  obtain ⟨hIds, hQN, hRN, hQS, hRS, hPR, hRL, hCC, hFC, hTC⟩ := hinv
  cases hstep with
  | addJob j hfresh hpending hprogress hstarted hresult =>
    have hjid : j.id ∉ List.map Job.id s.jobs := by
      intro hmem
      obtain ⟨x, hx, hxe⟩ := List.mem_map.mp hmem
      exact hfresh x hx hxe
    have hfind : ∀ p, findJob
        { s with
          jobs := j :: s.jobs
          queue := s.queue ++ [j.id]
          totalJobs := s.totalJobs + 1 } p
        = if j.id = p then some j else findJob s p :=
      fun p => findJob_cons rfl p
    have hqid : j.id ∉ s.queue := by
      intro hq
      obtain ⟨jq, hjq, _⟩ := hQS j.id hq
      exact hfresh jq (findJob_mem hjq) (findJob_id hjq)
    refine ⟨?_, ?_, ?_, ?_, ?_, ?_, ?_, ?_, ?_, ?_⟩
    · simp only [List.map_cons, List.nodup_cons]
      exact ⟨hjid, hIds⟩
    · refine List.Nodup.append hQN (List.nodup_singleton _) ?_
      intro x hx hx'
      rw [List.mem_singleton] at hx'
      rw [hx'] at hx
      exact hqid hx
    · exact hRN
    · intro q hq
      rcases List.mem_append.mp hq with hold | hnew
      · obtain ⟨jq, hjq, hst⟩ := hQS q hold
        have hne : j.id ≠ q := by
          intro he
          exact hfresh jq (findJob_mem hjq) ((findJob_id hjq).trans he.symm)
        exact ⟨jq, by rw [hfind q, if_neg hne]; exact hjq, hst⟩
      · rw [List.mem_singleton] at hnew
        refine ⟨j, ?_, Or.inl hpending⟩
        rw [hfind q, if_pos hnew.symm]
    · intro q hq
      obtain ⟨jr, hjr, hst⟩ := hRS q hq
      have hne : j.id ≠ q := by
        intro he
        exact hfresh jr (findJob_mem hjr) ((findJob_id hjr).trans he.symm)
      exact ⟨jr, by rw [hfind q, if_neg hne]; exact hjr, hst⟩
    · exact hPR
    · show s.running.length ≤ countStatus (j :: s.jobs) .processing
      rw [countStatus_cons, hpending]
      simpa using hRL
    · show s.completedJobs = ((countStatus (j :: s.jobs) .completed : Nat) : Int)
      rw [countStatus_cons, hpending]
      simpa using hCC
    · show s.failedJobs = ((countStatus (j :: s.jobs) .failed : Nat) : Int)
      rw [countStatus_cons, hpending]
      simpa using hFC
    · show s.totalJobs + 1 = ((j :: s.jobs).length : Int)
      rw [List.length_cons]
      push_cast
      omega
  | cancelJob id =>
    rcases hfj : findJob s id with _ | j
    · simp only [cancelRun, hfj]
      exact ⟨hIds, hQN, hRN, hQS, hRS, hPR, hRL, hCC, hFC, hTC⟩
    · by_cases hst : j.status = .pending
      · simp only [cancelRun, hfj, if_pos hst]
        have hidf : ∀ x : Job, (({ x with status := JobStatus.cancelled } : Job)).id = x.id :=
          fun _ => rfl
        have hfind : ∀ p, findJob { s with
            jobs := updateJobs s.jobs id (fun x => { x with status := .cancelled }) } p
            = (findJob s p).map (fun x => if x.id = id then { x with status := .cancelled } else x) :=
          fun p => findJob_updateJobs _ _ rfl hidf p
        refine ⟨?_, hQN, hRN, ?_, ?_, ?_, ?_, ?_, ?_, ?_⟩
        · show ((updateJobs s.jobs id _).map Job.id).Nodup
          rw [map_id_updateJobs hidf]
          exact hIds
        · intro q hq
          obtain ⟨jq, hjq, hst2⟩ := hQS q hq
          refine ⟨if jq.id = id then { jq with status := .cancelled } else jq, ?_, ?_⟩
          · rw [hfind q, hjq]
            rfl
          · by_cases he : jq.id = id
            · simp [he]
            · simpa [he] using hst2
        · intro q hq
          obtain ⟨jr, hjr, hst2⟩ := hRS q hq
          have hne : jr.id ≠ id := by
            intro he
            have hje : jr = j := findJob_unique hjr hfj ((findJob_id hjr).symm.trans he)
            rw [hje, hst] at hst2
            simp at hst2
          exact ⟨jr, by rw [hfind q, hjr]; simp [hne], hst2⟩
        · exact hPR
        · have h6 := countStatus_updateJobs hidf hIds hfj .processing
          simp [hst] at h6
          show s.running.length ≤ countStatus (updateJobs s.jobs id _) .processing
          rw [h6]
          exact hRL
        · have h7 := countStatus_updateJobs hidf hIds hfj .completed
          simp [hst] at h7
          show s.completedJobs = ((countStatus (updateJobs s.jobs id _) .completed : Nat) : Int)
          rw [h7]
          exact hCC
        · have h8 := countStatus_updateJobs hidf hIds hfj .failed
          simp [hst] at h8
          show s.failedJobs = ((countStatus (updateJobs s.jobs id _) .failed : Nat) : Int)
          rw [h8]
          exact hFC
        · show s.totalJobs = ((updateJobs s.jobs id _).length : Int)
          simp only [updateJobs, List.length_map]
          exact hTC
      · simp only [cancelRun, hfj, if_neg hst]
        exact ⟨hIds, hQN, hRN, hQS, hRS, hPR, hRL, hCC, hFC, hTC⟩
  | workerSkip id rest j hq hj hcancelled =>
    refine ⟨hIds, ?_, hRN, ?_, hRS, hPR, hRL, hCC, hFC, hTC⟩
    · rw [hq] at hQN
      exact hQN.of_cons
    · intro q hqm
      exact hQS q (by rw [hq]; exact List.mem_cons_of_mem _ hqm)
  | workerBegin id rest j t hq hj hnc hres =>
    have hidf : ∀ x : Job, (beginJob t x).id = x.id := fun _ => rfl
    have hself : id ∈ s.queue := by rw [hq]; exact List.mem_cons_self _ _
    obtain ⟨jq0, hjq0, hqst⟩ := hQS id hself
    have hje : jq0 = j := findJob_unique hjq0 hj rfl
    have hpend : j.status = .pending := by
      rcases hqst with h1 | h1
      · exact hje ▸ h1
      · exact absurd (hje ▸ h1) hnc
    have hnotrun : id ∉ s.running := by
      intro hr
      obtain ⟨jr, hjr, hrst⟩ := hRS id hr
      have hje2 : jr = j := findJob_unique hjr hj rfl
      rw [hje2, hpend] at hrst
      simp at hrst
    have hfind : ∀ p, findJob
        { s with
          jobs := updateJobs s.jobs id (beginJob t)
          queue := rest
          running := id :: s.running
          processingJobs := s.processingJobs + 1 } p
        = (findJob s p).map (fun x => if x.id = id then beginJob t x else x) :=
      fun p => findJob_updateJobs _ _ rfl hidf p
    have hidrest : id ∉ rest := by
      rw [hq] at hQN
      exact (List.nodup_cons.mp hQN).1
    refine ⟨?_, ?_, ?_, ?_, ?_, ?_, ?_, ?_, ?_, ?_⟩
    · show ((updateJobs s.jobs id _).map Job.id).Nodup
      rw [map_id_updateJobs hidf]
      exact hIds
    · rw [hq] at hQN
      exact hQN.of_cons
    · exact List.nodup_cons.mpr ⟨hnotrun, hRN⟩
    · intro q hqm
      obtain ⟨jq, hjq, hst2⟩ := hQS q (by rw [hq]; exact List.mem_cons_of_mem _ hqm)
      have hne : jq.id ≠ id := by
        rw [findJob_id hjq]
        intro he
        rw [he] at hqm
        exact hidrest hqm
      exact ⟨jq, by rw [hfind q, hjq]; simp [hne], hst2⟩
    · intro q hqm
      rcases List.mem_cons.mp hqm with rfl | hold
      · refine ⟨beginJob t j, ?_, rfl⟩
        rw [hfind q, hj]
        simp [findJob_id hj]
      · obtain ⟨jr, hjr, hst2⟩ := hRS q hold
        have hne : jr.id ≠ id := by
          rw [findJob_id hjr]
          intro he
          rw [he] at hold
          exact hnotrun hold
        exact ⟨jr, by rw [hfind q, hjr]; simp [hne], hst2⟩
    · show s.processingJobs + 1 = (((id :: s.running).length : Nat) : Int)
      simp only [List.length_cons]
      push_cast
      omega
    · have h6 := countStatus_updateJobs hidf hIds hj .processing
      simp [hpend] at h6
      show (id :: s.running).length ≤ countStatus (updateJobs s.jobs id _) .processing
      simp only [List.length_cons]
      omega
    · have h7 := countStatus_updateJobs hidf hIds hj .completed
      simp [hpend] at h7
      show s.completedJobs = ((countStatus (updateJobs s.jobs id _) .completed : Nat) : Int)
      rw [h7]
      exact hCC
    · have h8 := countStatus_updateJobs hidf hIds hj .failed
      simp [hpend] at h8
      show s.failedJobs = ((countStatus (updateJobs s.jobs id _) .failed : Nat) : Int)
      rw [h8]
      exact hFC
    · show s.totalJobs = ((updateJobs s.jobs id _).length : Int)
      simp only [updateJobs, List.length_map]
      exact hTC
  | workerBeginUnknown id rest j t t' hq hj hnc hres =>
    have hidf : ∀ x : Job,
        (failJob t' ("Unknown operation: " ++ x.operation) (beginJob t x)).id = x.id :=
      fun _ => rfl
    have hself : id ∈ s.queue := by rw [hq]; exact List.mem_cons_self _ _
    obtain ⟨jq0, hjq0, hqst⟩ := hQS id hself
    have hje : jq0 = j := findJob_unique hjq0 hj rfl
    have hpend : j.status = .pending := by
      rcases hqst with h1 | h1
      · exact hje ▸ h1
      · exact absurd (hje ▸ h1) hnc
    have hnotrun : id ∉ s.running := by
      intro hr
      obtain ⟨jr, hjr, hrst⟩ := hRS id hr
      have hje2 : jr = j := findJob_unique hjr hj rfl
      rw [hje2, hpend] at hrst
      simp at hrst
    have hfind : ∀ p, findJob
        { s with
          jobs := updateJobs s.jobs id
            (fun x => failJob t' ("Unknown operation: " ++ x.operation) (beginJob t x))
          queue := rest
          failedJobs := s.failedJobs + 1 } p
        = (findJob s p).map (fun x => if x.id = id then
            failJob t' ("Unknown operation: " ++ x.operation) (beginJob t x) else x) :=
      fun p => findJob_updateJobs _ _ rfl hidf p
    have hidrest : id ∉ rest := by
      rw [hq] at hQN
      exact (List.nodup_cons.mp hQN).1
    refine ⟨?_, ?_, hRN, ?_, ?_, ?_, ?_, ?_, ?_, ?_⟩
    · show ((updateJobs s.jobs id _).map Job.id).Nodup
      rw [map_id_updateJobs hidf]
      exact hIds
    · rw [hq] at hQN
      exact hQN.of_cons
    · intro q hqm
      obtain ⟨jq, hjq, hst2⟩ := hQS q (by rw [hq]; exact List.mem_cons_of_mem _ hqm)
      have hne : jq.id ≠ id := by
        rw [findJob_id hjq]
        intro he
        rw [he] at hqm
        exact hidrest hqm
      exact ⟨jq, by rw [hfind q, hjq]; simp [hne], hst2⟩
    · intro q hqm
      obtain ⟨jr, hjr, hst2⟩ := hRS q hqm
      have hne : jr.id ≠ id := by
        rw [findJob_id hjr]
        intro he
        rw [he] at hqm
        exact hnotrun hqm
      exact ⟨jr, by rw [hfind q, hjr]; simp [hne], hst2⟩
    · exact hPR
    · have h6 := countStatus_updateJobs hidf hIds hj .processing
      simp [hpend] at h6
      show s.running.length ≤ countStatus (updateJobs s.jobs id _) .processing
      rw [h6]
      exact hRL
    · have h7 := countStatus_updateJobs hidf hIds hj .completed
      simp [hpend] at h7
      show s.completedJobs = ((countStatus (updateJobs s.jobs id _) .completed : Nat) : Int)
      rw [h7]
      exact hCC
    · have h8 := countStatus_updateJobs hidf hIds hj .failed
      simp [hpend] at h8
      show s.failedJobs + 1 = ((countStatus (updateJobs s.jobs id _) .failed : Nat) : Int)
      rw [hFC]
      omega
    · show s.totalJobs = ((updateJobs s.jobs id _).length : Int)
      simp only [updateJobs, List.length_map]
      exact hTC
  | progressUpdate id p j hj hs =>
    have hidf : ∀ x : Job, (({ x with progress := p } : Job)).id = x.id := fun _ => rfl
    have hfind : ∀ q, findJob { s with
        jobs := updateJobs s.jobs id (fun x => { x with progress := p }) } q
        = (findJob s q).map (fun x => if x.id = id then { x with progress := p } else x) :=
      fun q => findJob_updateJobs _ _ rfl hidf q
    refine ⟨?_, hQN, hRN, ?_, ?_, ?_, ?_, ?_, ?_, ?_⟩
    · show ((updateJobs s.jobs id _).map Job.id).Nodup
      rw [map_id_updateJobs hidf]
      exact hIds
    · intro q hq
      obtain ⟨jq, hjq, hst2⟩ := hQS q hq
      refine ⟨if jq.id = id then { jq with progress := p } else jq, ?_, ?_⟩
      · rw [hfind q, hjq]
        rfl
      · by_cases he : jq.id = id
        · simpa [he] using hst2
        · simpa [he] using hst2
    · intro q hq
      obtain ⟨jr, hjr, hst2⟩ := hRS q hq
      refine ⟨if jr.id = id then { jr with progress := p } else jr, ?_, ?_⟩
      · rw [hfind q, hjr]
        rfl
      · by_cases he : jr.id = id
        · simpa [he] using hst2
        · simpa [he] using hst2
    · exact hPR
    · have h6 := countStatus_updateJobs hidf hIds hj .processing
      by_cases hb : j.status = .processing <;> simp [hb] at h6 <;>
        · show s.running.length ≤ countStatus (updateJobs s.jobs id _) .processing
          rw [h6]
          exact hRL
    · have h7 := countStatus_updateJobs hidf hIds hj .completed
      by_cases hb : j.status = .completed <;> simp [hb] at h7 <;>
        · show s.completedJobs = ((countStatus (updateJobs s.jobs id _) .completed : Nat) : Int)
          rw [h7]
          exact hCC
    · have h8 := countStatus_updateJobs hidf hIds hj .failed
      by_cases hb : j.status = .failed <;> simp [hb] at h8 <;>
        · show s.failedJobs = ((countStatus (updateJobs s.jobs id _) .failed : Nat) : Int)
          rw [h8]
          exact hFC
    · show s.totalJobs = ((updateJobs s.jobs id _).length : Int)
      simp only [updateJobs, List.length_map]
      exact hTC
  | finishSuccess id r t' hr hs =>
    have hidf : ∀ x : Job, (completeJob t' r x).id = x.id := fun _ => rfl
    obtain ⟨j, hj, hproc⟩ := hRS id hr
    have hfind : ∀ q, findJob
        { s with
          jobs := updateJobs s.jobs id (completeJob t' r)
          running := s.running.erase id
          completedJobs := s.completedJobs + 1
          processingJobs := s.processingJobs - 1 } q
        = (findJob s q).map (fun x => if x.id = id then completeJob t' r x else x) :=
      fun q => findJob_updateJobs _ _ rfl hidf q
    refine ⟨?_, hQN, hRN.erase id, ?_, ?_, ?_, ?_, ?_, ?_, ?_⟩
    · show ((updateJobs s.jobs id _).map Job.id).Nodup
      rw [map_id_updateJobs hidf]
      exact hIds
    · intro q hq
      obtain ⟨jq, hjq, hst2⟩ := hQS q hq
      have hne : jq.id ≠ id := by
        intro he
        have hje : jq = j := findJob_unique hjq hj ((findJob_id hjq).symm.trans he)
        rcases hst2 with h1 | h1 <;> rw [hje, hproc] at h1 <;> simp at h1
      exact ⟨jq, by rw [hfind q, hjq]; simp [hne], hst2⟩
    · intro q hq
      obtain ⟨hne', hold⟩ := (List.Nodup.mem_erase_iff hRN).mp hq
      obtain ⟨jr, hjr, hst2⟩ := hRS q hold
      have hne : jr.id ≠ id := by
        rw [findJob_id hjr]
        exact hne'
      exact ⟨jr, by rw [hfind q, hjr]; simp [hne], hst2⟩
    · show s.processingJobs - 1 = (((s.running.erase id).length : Nat) : Int)
      rw [List.length_erase_of_mem hr]
      have hpos : 0 < s.running.length := List.length_pos.mpr (List.ne_nil_of_mem hr)
      omega
    · have h6 := countStatus_updateJobs hidf hIds hj .processing
      simp [hproc] at h6
      show (s.running.erase id).length ≤ countStatus (updateJobs s.jobs id _) .processing
      rw [List.length_erase_of_mem hr]
      omega
    · have h7 := countStatus_updateJobs hidf hIds hj .completed
      simp [hproc] at h7
      show s.completedJobs + 1 = ((countStatus (updateJobs s.jobs id _) .completed : Nat) : Int)
      rw [hCC]
      omega
    · have h8 := countStatus_updateJobs hidf hIds hj .failed
      simp [hproc] at h8
      show s.failedJobs = ((countStatus (updateJobs s.jobs id _) .failed : Nat) : Int)
      rw [h8]
      exact hFC
    · show s.totalJobs = ((updateJobs s.jobs id _).length : Int)
      simp only [updateJobs, List.length_map]
      exact hTC
  | finishFailure id e t' hr =>
    have hidf : ∀ x : Job, (failJob t' e x).id = x.id := fun _ => rfl
    obtain ⟨j, hj, hproc⟩ := hRS id hr
    have hfind : ∀ q, findJob
        { s with
          jobs := updateJobs s.jobs id (failJob t' e)
          running := s.running.erase id
          failedJobs := s.failedJobs + 1
          processingJobs := s.processingJobs - 1 } q
        = (findJob s q).map (fun x => if x.id = id then failJob t' e x else x) :=
      fun q => findJob_updateJobs _ _ rfl hidf q
    refine ⟨?_, hQN, hRN.erase id, ?_, ?_, ?_, ?_, ?_, ?_, ?_⟩
    · show ((updateJobs s.jobs id _).map Job.id).Nodup
      rw [map_id_updateJobs hidf]
      exact hIds
    · intro q hq
      obtain ⟨jq, hjq, hst2⟩ := hQS q hq
      have hne : jq.id ≠ id := by
        intro he
        have hje : jq = j := findJob_unique hjq hj ((findJob_id hjq).symm.trans he)
        rcases hst2 with h1 | h1 <;> rw [hje, hproc] at h1 <;> simp at h1
      exact ⟨jq, by rw [hfind q, hjq]; simp [hne], hst2⟩
    · intro q hq
      obtain ⟨hne', hold⟩ := (List.Nodup.mem_erase_iff hRN).mp hq
      obtain ⟨jr, hjr, hst2⟩ := hRS q hold
      have hne : jr.id ≠ id := by
        rw [findJob_id hjr]
        exact hne'
      exact ⟨jr, by rw [hfind q, hjr]; simp [hne], hst2⟩
    · show s.processingJobs - 1 = (((s.running.erase id).length : Nat) : Int)
      rw [List.length_erase_of_mem hr]
      have hpos : 0 < s.running.length := List.length_pos.mpr (List.ne_nil_of_mem hr)
      omega
    · have h6 := countStatus_updateJobs hidf hIds hj .processing
      simp [hproc] at h6
      show (s.running.erase id).length ≤ countStatus (updateJobs s.jobs id _) .processing
      rw [List.length_erase_of_mem hr]
      omega
    · have h7 := countStatus_updateJobs hidf hIds hj .completed
      simp [hproc] at h7
      show s.completedJobs = ((countStatus (updateJobs s.jobs id _) .completed : Nat) : Int)
      rw [h7]
      exact hCC
    · have h8 := countStatus_updateJobs hidf hIds hj .failed
      simp [hproc] at h8
      show s.failedJobs + 1 = ((countStatus (updateJobs s.jobs id _) .failed : Nat) : Int)
      rw [hFC]
      omega
    · show s.totalJobs = ((updateJobs s.jobs id _).length : Int)
      simp only [updateJobs, List.length_map]
      exact hTC
  | workerAbandon id t' hr =>
    have hidf : ∀ x : Job, (({ x with completedAt := some t' } : Job)).id = x.id :=
      fun _ => rfl
    obtain ⟨j, hj, hproc⟩ := hRS id hr
    have hfind : ∀ q, findJob
        { s with
          jobs := updateJobs s.jobs id (fun x => { x with completedAt := some t' })
          running := s.running.erase id
          processingJobs := s.processingJobs - 1 } q
        = (findJob s q).map
            (fun x => if x.id = id then { x with completedAt := some t' } else x) :=
      fun q => findJob_updateJobs _ _ rfl hidf q
    refine ⟨?_, hQN, hRN.erase id, ?_, ?_, ?_, ?_, ?_, ?_, ?_⟩
    · show ((updateJobs s.jobs id _).map Job.id).Nodup
      rw [map_id_updateJobs hidf]
      exact hIds
    · intro q hq
      obtain ⟨jq, hjq, hst2⟩ := hQS q hq
      refine ⟨if jq.id = id then { jq with completedAt := some t' } else jq, ?_, ?_⟩
      · rw [hfind q, hjq]
        rfl
      · by_cases he : jq.id = id
        · simpa [he] using hst2
        · simpa [he] using hst2
    · intro q hq
      obtain ⟨hne', hold⟩ := (List.Nodup.mem_erase_iff hRN).mp hq
      obtain ⟨jr, hjr, hst2⟩ := hRS q hold
      refine ⟨if jr.id = id then { jr with completedAt := some t' } else jr, ?_, ?_⟩
      · rw [hfind q, hjr]
        rfl
      · by_cases he : jr.id = id
        · simpa [he] using hst2
        · simpa [he] using hst2
    · show s.processingJobs - 1 = (((s.running.erase id).length : Nat) : Int)
      rw [List.length_erase_of_mem hr]
      have hpos : 0 < s.running.length := List.length_pos.mpr (List.ne_nil_of_mem hr)
      omega
    · have h6 := countStatus_updateJobs hidf hIds hj .processing
      simp [hproc] at h6
      show (s.running.erase id).length ≤ countStatus (updateJobs s.jobs id _) .processing
      rw [List.length_erase_of_mem hr, h6]
      omega
    · have h7 := countStatus_updateJobs hidf hIds hj .completed
      simp [hproc] at h7
      show s.completedJobs = ((countStatus (updateJobs s.jobs id _) .completed : Nat) : Int)
      rw [h7]
      exact hCC
    · have h8 := countStatus_updateJobs hidf hIds hj .failed
      simp [hproc] at h8
      show s.failedJobs = ((countStatus (updateJobs s.jobs id _) .failed : Nat) : Int)
      rw [h8]
      exact hFC
    · show s.totalJobs = ((updateJobs s.jobs id _).length : Int)
      simp only [updateJobs, List.length_map]
      exact hTC

theorem inv_reachable {s : QueueState} (h : Reachable s) : QueueInv s := by
  induction h with
  | refl => exact inv_init
  | tail _ hstep ih => exact inv_step ih hstep

/-! ### Per-job status evolution along a step -/

/-- The forward state machine of §4.1: either no change, or one of the
transitions out of Pending, or one of the transitions out of Processing. -/
def StatusLe (a b : JobStatus) : Prop :=
  a = b
    ∨ (a = .pending ∧ (b = .processing ∨ b = .cancelled ∨ b = .failed))
    ∨ (a = .processing ∧ (b = .completed ∨ b = .failed))

instance (a b : JobStatus) : Decidable (StatusLe a b) := by
  unfold StatusLe
  infer_instance

theorem findJob_updateJobs_cases {s s' : QueueState} (uid : Nat) (f : Job → Job)
    (hupd : s'.jobs = updateJobs s.jobs uid f) (hidp : ∀ x, (f x).id = x.id)
    {id : Nat} {j j' : Job}
    (h1 : findJob s id = some j) (h2 : findJob s' id = some j') :
    j' = j ∨ (j' = f j ∧ j.id = uid) := by
  rw [findJob_updateJobs uid f hupd hidp id, h1, Option.map_some'] at h2
  have h3 := Option.some.inj h2
  by_cases he : j.id = uid
  · rw [if_pos he] at h3
    exact Or.inr ⟨h3.symm, he⟩
  · rw [if_neg he] at h3
    exact Or.inl h3.symm

theorem step_status_le {s s' : QueueState} (hinv : QueueInv s) (hstep : Step s s')
    {id : Nat} {j j' : Job} (hj : findJob s id = some j)
    (hj' : findJob s' id = some j') :
    StatusLe j.status j'.status := by
  obtain ⟨hIds, hQN, hRN, hQS, hRS, _, _, _, _, _⟩ := hinv
  cases hstep with
  | addJob jn hfresh hpending hprogress hstarted hresult =>
    have hne : jn.id ≠ id := fun he =>
      hfresh j (findJob_mem hj) ((findJob_id hj).trans he.symm)
    rw [findJob_cons rfl id, if_neg hne, hj] at hj'
    obtain rfl := Option.some.inj hj'
    exact Or.inl rfl
  | cancelJob cid =>
    rcases hfj : findJob s cid with _ | jc
    · have hs : (cancelRun s cid).1 = s := by simp [cancelRun, hfj]
      rw [hs, hj] at hj'
      obtain rfl := Option.some.inj hj'
      exact Or.inl rfl
    · by_cases hp : jc.status = .pending
      · have hupd : (cancelRun s cid).1.jobs
            = updateJobs s.jobs cid (fun x => { x with status := .cancelled }) := by
          simp [cancelRun, hfj, hp]
        rcases findJob_updateJobs_cases cid (fun x => { x with status := .cancelled }) hupd
            (fun _ => rfl) hj hj' with rfl | ⟨rfl, he⟩
        · exact Or.inl rfl
        · have hjc : j = jc := findJob_unique hj hfj ((findJob_id hj).symm.trans he)
          exact Or.inr (Or.inl ⟨hjc.symm ▸ hp, Or.inr (Or.inl rfl)⟩)
      · have hs : (cancelRun s cid).1 = s := by simp [cancelRun, hfj, hp]
        rw [hs, hj] at hj'
        obtain rfl := Option.some.inj hj'
        exact Or.inl rfl
  | workerSkip wid rest jw hq hjw hcanc =>
    have hsame : findJob { s with queue := rest } id = findJob s id := rfl
    rw [hsame, hj] at hj'
    obtain rfl := Option.some.inj hj'
    exact Or.inl rfl
  | workerBegin wid rest jw t hq hjw hnc hres =>
    obtain ⟨jq0, hjq0, hqst⟩ := hQS wid (by rw [hq]; exact List.mem_cons_self _ _)
    have hje : jq0 = jw := findJob_unique hjq0 hjw rfl
    have hpend : jw.status = .pending := by
      rcases hqst with h1 | h1
      · exact hje ▸ h1
      · exact absurd (hje ▸ h1) hnc
    rcases findJob_updateJobs_cases wid (beginJob t) rfl (fun _ => rfl) hj hj'
      with rfl | ⟨rfl, he⟩
    · exact Or.inl rfl
    · have hjw2 : j = jw := findJob_unique hj hjw ((findJob_id hj).symm.trans he)
      exact Or.inr (Or.inl ⟨hjw2.symm ▸ hpend, Or.inl rfl⟩)
  | workerBeginUnknown wid rest jw t t' hq hjw hnc hres =>
    obtain ⟨jq0, hjq0, hqst⟩ := hQS wid (by rw [hq]; exact List.mem_cons_self _ _)
    have hje : jq0 = jw := findJob_unique hjq0 hjw rfl
    have hpend : jw.status = .pending := by
      rcases hqst with h1 | h1
      · exact hje ▸ h1
      · exact absurd (hje ▸ h1) hnc
    rcases findJob_updateJobs_cases wid
        (fun x => failJob t' ("Unknown operation: " ++ x.operation) (beginJob t x)) rfl
        (fun _ => rfl) hj hj' with rfl | ⟨rfl, he⟩
    · exact Or.inl rfl
    · have hjw2 : j = jw := findJob_unique hj hjw ((findJob_id hj).symm.trans he)
      exact Or.inr (Or.inl ⟨hjw2.symm ▸ hpend, Or.inr (Or.inr rfl)⟩)
  | progressUpdate uid p jp hjp hsp =>
    rcases findJob_updateJobs_cases uid (fun x => { x with progress := p }) rfl
        (fun _ => rfl) hj hj' with rfl | ⟨rfl, he⟩
    · exact Or.inl rfl
    · exact Or.inl rfl
  | finishSuccess uid r t' hr hs =>
    obtain ⟨jr, hjr, hproc⟩ := hRS uid hr
    rcases findJob_updateJobs_cases uid (completeJob t' r) rfl
        (fun _ => rfl) hj hj' with rfl | ⟨rfl, he⟩
    · exact Or.inl rfl
    · have hjr2 : j = jr := findJob_unique hj hjr ((findJob_id hj).symm.trans he)
      exact Or.inr (Or.inr ⟨hjr2.symm ▸ hproc, Or.inl rfl⟩)
  | finishFailure uid e t' hr =>
    obtain ⟨jr, hjr, hproc⟩ := hRS uid hr
    rcases findJob_updateJobs_cases uid (failJob t' e) rfl
        (fun _ => rfl) hj hj' with rfl | ⟨rfl, he⟩
    · exact Or.inl rfl
    · have hjr2 : j = jr := findJob_unique hj hjr ((findJob_id hj).symm.trans he)
      exact Or.inr (Or.inr ⟨hjr2.symm ▸ hproc, Or.inr rfl⟩)
  | workerAbandon uid t' hr =>
    rcases findJob_updateJobs_cases uid (fun x => { x with completedAt := some t' }) rfl
        (fun _ => rfl) hj hj' with rfl | ⟨rfl, he⟩
    · exact Or.inl rfl
    · exact Or.inl rfl



/-! ### Concrete fixtures for instantiating the queue theorems -/

/-- A freshly constructed job, as `Job.__init__` would build it. -/
def sampleJob : Job :=
  { id := 0, inputFile := "videos/in.mp4", operation := "transcode",
    parameters := [], outputFile := "videos/out.mp4", status := .pending,
    progress := 0, createdAt := 0, startedAt := none, completedAt := none,
    error := none, result := none }

/-- The state after submitting `sampleJob` to a fresh queue. -/
def sampleState1 : QueueState :=
  { jobs := [sampleJob], queue := [0], running := [], totalJobs := 1,
    completedJobs := 0, failedJobs := 0, processingJobs := 0 }

/-- The state after additionally cancelling job 0. -/
def sampleState2 : QueueState := (cancelRun sampleState1 0).1

/-- `{ sampleJob with status := cancelled }`, the job stored in
`sampleState2`. -/
def cancelledSampleJob : Job := { sampleJob with status := .cancelled }

theorem sampleState1_reachable : Reachable sampleState1 :=
  Relation.ReflTransGen.single
    (Step.addJob initState sampleJob (by simp [initState]) rfl rfl rfl rfl)

theorem sampleState2_reachable : Reachable sampleState2 :=
  Relation.ReflTransGen.tail sampleState1_reachable (Step.cancelJob sampleState1 0)

/-! ## Claim C1: `cancel_job` semantics -/

/-- **C1.** `cancel_job(id)` returns true iff a job with that id exists in
the store and its status is Pending at call time, in which case the job's
status becomes Cancelled; otherwise it returns false and the state (hence
the job's status) is unchanged. -/
theorem cancel_job_pending_iff (s : QueueState) (id : Nat) :
    ((cancelRun s id).2 = true ↔ ∃ j, findJob s id = some j ∧ j.status = .pending) ∧
    (∀ j, findJob s id = some j → j.status = .pending →
      findJob (cancelRun s id).1 id = some { j with status := .cancelled }) ∧
    (∀ j, findJob s id = some j → j.status ≠ .pending → (cancelRun s id).1 = s) ∧
    (findJob s id = none → (cancelRun s id).1 = s ∧ (cancelRun s id).2 = false) := by
  rcases hfj : findJob s id with _ | j
  · refine ⟨?_, ?_, ?_, fun _ => by simp [cancelRun, hfj]⟩
    · simp [cancelRun, hfj]
    · intro j2 hj2
      cases hj2
    · intro j2 hj2
      cases hj2
  · by_cases hp : j.status = .pending
    · have hupd : (cancelRun s id).1
          = { s with jobs := updateJobs s.jobs id (fun x => { x with status := .cancelled }) } := by
        simp [cancelRun, hfj, hp]
      have hbool : (cancelRun s id).2 = true := by simp [cancelRun, hfj, hp]
      have hfind : findJob (cancelRun s id).1 id
          = (findJob s id).map (fun x => if x.id = id then { x with status := .cancelled } else x) := by
        rw [hupd]
        exact findJob_updateJobs id (fun x => { x with status := .cancelled }) rfl
          (fun _ => rfl) id
      refine ⟨?_, ?_, ?_, ?_⟩
      · rw [hbool]
        simp only [true_iff]
        exact ⟨j, rfl, hp⟩
      · intro j2 hj2 hp2
        have hje : j2 = j := (Option.some.inj hj2).symm
        subst hje
        rw [hfind, hfj, Option.map_some', if_pos (findJob_id hfj)]
      · intro j2 hj2 hp2
        have hje : j2 = j := (Option.some.inj hj2).symm
        exact absurd hp (hje ▸ hp2)
      · intro hn
        cases hn
    · have hs : cancelRun s id = (s, false) := by simp [cancelRun, hfj, hp]
      rw [hs]
      refine ⟨?_, ?_, ?_, ?_⟩
      · constructor
        · intro h
          cases h
        · rintro ⟨j2, hj2, hp2⟩
          have hje : j2 = j := (Option.some.inj hj2).symm
          exact absurd (hje ▸ hp2) hp
      · intro j2 hj2 hp2
        have hje : j2 = j := (Option.some.inj hj2).symm
        exact absurd (hje ▸ hp2) hp
      · intro _ _ _
        rfl
      · intro hn
        exact ⟨rfl, rfl⟩

/-- Witness for C1 at a concrete store: cancelling the pending job 0 of
`sampleState1` marks it Cancelled. -/
theorem cancel_job_pending_iff_witness :
    findJob (cancelRun sampleState1 0).1 0 = some cancelledSampleJob :=
  (cancel_job_pending_iff sampleState1 0).2.1 sampleJob (by decide) (by decide)

/-! ## Claim C2: terminal statuses are stable, Pending is never re-entered -/

/-- Single-step form: along any transition out of a reachable state, a job
already in a terminal status keeps it, and a job never moves (back) to
Pending. -/
theorem status_step_facts {s s' : QueueState} (hreach : Reachable s)
    (hstep : Step s s') {id : Nat} {j j' : Job}
    (hj : findJob s id = some j) (hj' : findJob s' id = some j') :
    (isTerminal j.status → j'.status = j.status) ∧
    (j'.status = .pending → j.status = .pending) := by
  have hle := step_status_le (inv_reachable hreach) hstep hj hj'
  constructor
  · intro hterm
    rcases hle with h | ⟨h1, _⟩ | ⟨h1, _⟩
    · exact h.symm
    · exfalso
      rcases hterm with h3 | h3 | h3 <;> rw [h3] at h1 <;> cases h1
    · exfalso
      rcases hterm with h3 | h3 | h3 <;> rw [h3] at h1 <;> cases h1
  · intro hpend'
    rcases hle with h | ⟨h1, _⟩ | ⟨_, h2⟩
    · rw [h]
      exact hpend'
    · exact h1
    · exfalso
      rcases h2 with h3 | h3 <;> rw [hpend'] at h3 <;> cases h3

theorem findJob_step_exists {s s' : QueueState} (hstep : Step s s') {id : Nat}
    {j : Job} (hj : findJob s id = some j) : ∃ j', findJob s' id = some j' := by
  cases hstep with
  | addJob jn hfresh _ _ _ _ =>
    rw [findJob_cons rfl id]
    by_cases he : jn.id = id
    · exact ⟨jn, by rw [if_pos he]⟩
    · exact ⟨j, by rw [if_neg he]; exact hj⟩
  | cancelJob cid =>
    rcases hfj : findJob s cid with _ | jc
    · exact ⟨j, by
        rw [show (cancelRun s cid).1 = s from by simp [cancelRun, hfj]]
        exact hj⟩
    · by_cases hp : jc.status = .pending
      · refine ⟨if j.id = cid then { j with status := .cancelled } else j, ?_⟩
        have hupd : (cancelRun s cid).1.jobs
            = updateJobs s.jobs cid (fun x => { x with status := .cancelled }) := by
          simp [cancelRun, hfj, hp]
        rw [findJob_updateJobs cid _ hupd (fun _ => rfl) id, hj, Option.map_some']
      · exact ⟨j, by
          rw [show (cancelRun s cid).1 = s from by simp [cancelRun, hfj, hp]]
          exact hj⟩
  | workerSkip wid rest jw hq hjw hcanc => exact ⟨j, hj⟩
  | workerBegin wid rest jw t hq hjw hnc hres =>
    refine ⟨if j.id = wid then beginJob t j else j, ?_⟩
    rw [findJob_updateJobs wid (beginJob t) rfl (fun _ => rfl) id, hj, Option.map_some']
  | workerBeginUnknown wid rest jw t t' hq hjw hnc hres =>
    refine ⟨if j.id = wid then
      failJob t' ("Unknown operation: " ++ j.operation) (beginJob t j) else j, ?_⟩
    rw [findJob_updateJobs wid
      (fun x => failJob t' ("Unknown operation: " ++ x.operation) (beginJob t x)) rfl
      (fun _ => rfl) id, hj, Option.map_some']
  | progressUpdate uid p jp hjp hsp =>
    refine ⟨if j.id = uid then { j with progress := p } else j, ?_⟩
    rw [findJob_updateJobs uid (fun x => { x with progress := p }) rfl
      (fun _ => rfl) id, hj, Option.map_some']
  | finishSuccess uid r t' hr hs =>
    refine ⟨if j.id = uid then completeJob t' r j else j, ?_⟩
    rw [findJob_updateJobs uid (completeJob t' r) rfl (fun _ => rfl) id, hj,
      Option.map_some']
  | finishFailure uid e t' hr =>
    refine ⟨if j.id = uid then failJob t' e j else j, ?_⟩
    rw [findJob_updateJobs uid (failJob t' e) rfl (fun _ => rfl) id, hj,
      Option.map_some']
  | workerAbandon uid t' hr =>
    refine ⟨if j.id = uid then { j with completedAt := some t' } else j, ?_⟩
    rw [findJob_updateJobs uid (fun x => { x with completedAt := some t' }) rfl
      (fun _ => rfl) id, hj, Option.map_some']

theorem findJob_rtc_exists {s s' : QueueState}
    (hsteps : Relation.ReflTransGen Step s s') {id : Nat} {j : Job}
    (hj : findJob s id = some j) : ∃ j', findJob s' id = some j' := by
  induction hsteps with
  | refl => exact ⟨j, hj⟩
  | tail _ hstep ih =>
    obtain ⟨j2, hj2⟩ := ih
    exact findJob_step_exists hstep hj2

/-- **C2.** Over any sequence of operations starting from a reachable state,
a job already in a terminal status (Completed, Failed or Cancelled) keeps
that status forever, and a job's status never returns to Pending. -/
theorem terminal_status_stable {s s' : QueueState} (hreach : Reachable s)
    (hsteps : Relation.ReflTransGen Step s s') {id : Nat} {j j' : Job}
    (hj : findJob s id = some j) (hj' : findJob s' id = some j') :
    (isTerminal j.status → j'.status = j.status)
    ∧ (j'.status = .pending → j.status = .pending) := by
  have main : ∀ s'' : QueueState, Relation.ReflTransGen Step s s'' →
      ∀ j'' : Job, findJob s'' id = some j'' →
      (isTerminal j.status → j''.status = j.status)
      ∧ (j''.status = .pending → j.status = .pending) := by
    intro s'' hsteps2
    induction hsteps2 with
    | refl =>
      intro j'' hj''
      rw [hj] at hj''
      obtain rfl := Option.some.inj hj''
      exact ⟨fun _ => rfl, fun h => h⟩
    | tail h12 hstep ih =>
      intro j'' hj''
      obtain ⟨j2, hj2⟩ := findJob_rtc_exists h12 hj
      have hmid := ih j2 hj2
      have hone := status_step_facts (hreach.trans h12) hstep hj2 hj''
      constructor
      · intro hterm
        have h2 : j2.status = j.status := hmid.1 hterm
        have h1 : j''.status = j2.status := hone.1 (by rw [h2]; exact hterm)
        rw [h1, h2]
      · intro hpend
        exact hmid.2 (hone.2 hpend)
  exact main s' hsteps j' hj'

/-- Witness for C2: the cancelled job of `sampleState2` stays Cancelled
across a further (no-op) cancel step. -/
theorem terminal_status_stable_witness :
    (isTerminal cancelledSampleJob.status →
      cancelledSampleJob.status = cancelledSampleJob.status) ∧
    (cancelledSampleJob.status = .pending → cancelledSampleJob.status = .pending) := by
  have hj : findJob sampleState2 0 = some cancelledSampleJob := by decide
  have hj' : findJob (cancelRun sampleState2 0).1 0 = some cancelledSampleJob := by decide
  exact terminal_status_stable sampleState2_reachable
    (Relation.ReflTransGen.single (Step.cancelJob sampleState2 0)) hj hj'

/-! ## Claim C7 (corrected): the stats counters census -/

/-- The state after a worker dequeues job 0 of `sampleState1` and enters
`_process_job` (status Processing, `started_at` stamped, counter bumped). -/
def processingSampleState : QueueState :=
  { jobs := [beginJob 3 sampleJob], queue := [], running := [0], totalJobs := 1,
    completedJobs := 0, failedJobs := 0, processingJobs := 1 }

/-- The state after `stop()` cancels that worker while it is suspended at
the `run_in_executor` await: the `CancelledError` bypasses
`except Exception`, but the `finally` stamps `completed_at` and decrements
`processing_jobs`; the job stays Processing forever. -/
def abandonedSampleState : QueueState :=
  { jobs := [{ beginJob 3 sampleJob with completedAt := some 4 }], queue := [],
    running := [], totalJobs := 1, completedJobs := 0, failedJobs := 0,
    processingJobs := 0 }

theorem processingSampleState_reachable : Reachable processingSampleState :=
  Relation.ReflTransGen.tail sampleState1_reachable
    (Step.workerBegin sampleState1 0 [] sampleJob 3 rfl (by decide) (by decide)
      (by decide))

theorem abandonedSampleState_reachable : Reachable abandonedSampleState :=
  Relation.ReflTransGen.tail processingSampleState_reachable
    (Step.workerAbandon processingSampleState 0 4 (by decide))

/-- C7 counterexample: in the reachable state left behind when shutdown
abandons the one running job, the claimed census equation fails — the job
is counted in `total_jobs` but its status is still Processing while
`processing_jobs` was already decremented back to 0. -/
theorem stats_census_counterexample :
    Reachable abandonedSampleState
    ∧ ¬ (abandonedSampleState.completedJobs + abandonedSampleState.failedJobs
        + abandonedSampleState.processingJobs
        + (countStatus abandonedSampleState.jobs .pending : Int)
        + (countStatus abandonedSampleState.jobs .cancelled : Int)
        = abandonedSampleState.totalJobs) :=
  ⟨abandonedSampleState_reachable, by decide⟩

/-- **C7 (amended).** In every reachable state the census balances once the
abandoned jobs are counted:
`completed + failed + processing + #pending + #cancelled + A = total`,
where `A = #Processing − processing_jobs ≥ 0` is the number of jobs
abandoned by shutdown cancellation mid-execution (their status stays
Processing while `processing_jobs` was decremented by the `finally`).  In
particular the originally claimed equation holds in every state with no
abandoned job (`processing_jobs = #Processing`), and `processing_jobs ≥ 0`
and `completed + failed ≤ total` hold unconditionally. -/
theorem stats_counters_invariant {s : QueueState} (h : Reachable s) :
    s.completedJobs + s.failedJobs + s.processingJobs
        + (countStatus s.jobs .pending : Int) + (countStatus s.jobs .cancelled : Int)
        + ((countStatus s.jobs .processing : Int) - s.processingJobs)
      = s.totalJobs
    ∧ s.processingJobs ≤ (countStatus s.jobs .processing : Int)
    ∧ 0 ≤ s.processingJobs
    ∧ s.completedJobs + s.failedJobs ≤ s.totalJobs
    ∧ (s.processingJobs = (countStatus s.jobs .processing : Int) →
        s.completedJobs + s.failedJobs + s.processingJobs
          + (countStatus s.jobs .pending : Int)
          + (countStatus s.jobs .cancelled : Int) = s.totalJobs) := by
  obtain ⟨_, _, _, _, _, hPR, hRL, hCC, hFC, hTC⟩ := inv_reachable h
  have hpart := countStatus_partition s.jobs
  refine ⟨?_, ?_, ?_, ?_, fun h5 => ?_⟩ <;> omega

/-- Witness for the amended C7 at the concrete reachable state
`sampleState1`. -/
theorem stats_counters_invariant_witness :
    sampleState1.completedJobs + sampleState1.failedJobs + sampleState1.processingJobs
        + (countStatus sampleState1.jobs .pending : Int)
        + (countStatus sampleState1.jobs .cancelled : Int)
        + ((countStatus sampleState1.jobs .processing : Int)
            - sampleState1.processingJobs)
      = sampleState1.totalJobs
    ∧ sampleState1.processingJobs ≤ (countStatus sampleState1.jobs .processing : Int)
    ∧ 0 ≤ sampleState1.processingJobs
    ∧ sampleState1.completedJobs + sampleState1.failedJobs ≤ sampleState1.totalJobs
    ∧ (sampleState1.processingJobs
          = (countStatus sampleState1.jobs .processing : Int) →
        sampleState1.completedJobs + sampleState1.failedJobs
          + sampleState1.processingJobs
          + (countStatus sampleState1.jobs .pending : Int)
          + (countStatus sampleState1.jobs .cancelled : Int)
          = sampleState1.totalJobs) :=
  stats_counters_invariant sampleState1_reachable


/-! ## Facts about `applyProgressUpdates` -/

theorem applyProgressUpdates_progress (j : Job) (ups : List ℚ) :
    (applyProgressUpdates j ups).progress = ups.getLastD j.progress := by
  induction ups generalizing j with
  | nil => rfl
  | cons a l ih =>
    show (applyProgressUpdates { j with progress := a } l).progress = _
    rw [List.getLastD_cons]
    exact ih _

theorem applyProgressUpdates_status (j : Job) (ups : List ℚ) :
    (applyProgressUpdates j ups).status = j.status := by
  induction ups generalizing j with
  | nil => rfl
  | cons a l ih => exact ih _

theorem applyProgressUpdates_outputFile (j : Job) (ups : List ℚ) :
    (applyProgressUpdates j ups).outputFile = j.outputFile := by
  induction ups generalizing j with
  | nil => rfl
  | cons a l ih => exact ih _

/-! ## Claim C3 (corrected): resolution failure inside `_process_job` -/

/-- C3 counterexample: the claim says the job is "never transitioned to
Processing (started_at remains unset)", but `_process_job` stamps
`started_at` before resolving the operation — after an unresolvable
operation the field is set. -/
theorem unknown_op_sets_started_at :
    ¬ (processJobRun sampleJob 5 6 false [] (Except.error "boom")).startedAt = none := by
  decide

/-- **C3 (amended).** A dequeued job whose operation does not resolve is
failed immediately with the descriptive "Unknown operation" error, with no
handler invoked (the outcome and progress reports of a handler are
irrelevant to the final job) and its result — hence `processing_time` —
absent; however the job passes through Processing first, so `started_at`
is stamped. -/
theorem unknown_operation_fails_immediately (j : Job) (t t' : Nat) (ups : List ℚ)
    (oc : Except String OpResult) (hres : j.result = none) :
    (processJobRun j t t' false ups oc).status = .failed
    ∧ (processJobRun j t t' false ups oc).error
        = some ("Unknown operation: " ++ j.operation)
    ∧ (processJobRun j t t' false ups oc).startedAt = some t
    ∧ (processJobRun j t t' false ups oc).result = none
    ∧ (processJobRun j t t' false ups oc).progress = j.progress
    ∧ ∀ (ups' : List ℚ) (oc' : Except String OpResult),
        processJobRun j t t' false ups oc = processJobRun j t t' false ups' oc' := by
  exact ⟨rfl, rfl, rfl, hres, rfl, fun _ _ => rfl⟩

/-- Witness for the amended C3 at a concrete job. -/
theorem unknown_operation_fails_immediately_witness :
    (processJobRun sampleJob 5 6 false [] (Except.error "x")).status = .failed
    ∧ (processJobRun sampleJob 5 6 false [] (Except.error "x")).startedAt = some 5
    ∧ (processJobRun sampleJob 5 6 false [] (Except.error "x")).result = none := by
  have h := unknown_operation_fails_immediately sampleJob 5 6 [] (Except.error "x") rfl
  exact ⟨h.1, h.2.2.1, h.2.2.2.1⟩

/-! ## Claim C5: final progress values -/

/-- **C5.** If the handler result reports success the final progress is
exactly 100; if the job ends Failed its progress is the last value the
progress callback delivered (0 when none was delivered, since a fresh job
has progress 0). -/
theorem progress_final_value (j : Job) (t t' : Nat) (ups : List ℚ)
    (h0 : j.progress = 0) :
    (∀ r : OpResult, r.success = true →
      (processJobRun j t t' true ups (Except.ok r)).progress = 100)
    ∧ (∀ oc : Except String OpResult,
        (processJobRun j t t' true ups oc).status = .failed →
        (processJobRun j t t' true ups oc).progress = ups.getLastD 0) := by
  constructor
  · intro r hr
    simp [processJobRun, hr]
  · intro oc hst
    rcases oc with e | r
    · show (applyProgressUpdates { j with status := .processing, startedAt := some t }
        ups).progress = _
      rw [applyProgressUpdates_progress]
      show ups.getLastD j.progress = _
      rw [h0]
    · cases hres : r.success
      · have hpr : (processJobRun j t t' true ups (Except.ok r)).progress
            = (applyProgressUpdates { j with status := .processing, startedAt := some t }
                ups).progress := by
          simp [processJobRun, hres]
        rw [hpr, applyProgressUpdates_progress]
        show ups.getLastD j.progress = _
        rw [h0]
      · exfalso
        simp [processJobRun, hres] at hst

/-- Witness for C5: a failing run that last reported 60 keeps progress 60. -/
theorem progress_final_value_witness :
    (processJobRun sampleJob 1 2 true [30, 60] (Except.error "ffmpeg failed")).progress
      = 60 := by
  have h := (progress_final_value sampleJob 1 2 [30, 60] rfl).2
    (Except.error "ffmpeg failed") (by decide)
  rw [h]
  decide


/-! ## Claim C4: the percentage formula and its range -/

/-- **C4.** The percentage computed for an elapsed-time marker `ms` is
`min(100, (ms/1e6) / total * 100)` when `total > 0` and `0` when
`total ≤ 0`; consequently every value delivered to the progress sink lies
in `[0, 100]`. -/
theorem progress_pct_formula (total : ℚ) (lines : List String) (rc : Int) (el : ℚ)
    (ms : Nat) (p : ℚ) (hp : p ∈ (executeFfmpeg (some total) lines rc el).1) :
    ((0 < total → progressPct total ms = min 100 ((ms : ℚ) / 1000000 / total * 100))
      ∧ (total ≤ 0 → progressPct total ms = 0))
    ∧ 0 ≤ p ∧ p ≤ 100 := by
  refine ⟨⟨fun ht => by rw [progressPct, if_pos ht], fun ht => by
    rw [progressPct, if_neg (not_lt.mpr ht)]⟩, ?_⟩
  simp only [executeFfmpeg, deliveredProgress] at hp
  rw [List.mem_filterMap] at hp
  obtain ⟨l, hl, hpl⟩ := hp
  rcases hparse : parseOutTimeMs l with _ | ms'
  · rw [hparse] at hpl
    cases hpl
  · rw [hparse, Option.map_some'] at hpl
    have hpe : p = progressPct total ms' := (Option.some.inj hpl).symm
    subst hpe
    constructor
    · rcases le_or_lt total 0 with ht | ht
      · rw [progressPct, if_neg (not_lt.mpr ht)]
      · rw [progressPct, if_pos ht]
        refine le_min (by norm_num) ?_
        positivity
    · rcases le_or_lt total 0 with ht | ht
      · rw [progressPct, if_neg (not_lt.mpr ht)]
        norm_num
      · rw [progressPct, if_pos ht]
        exact min_le_left _ _

theorem progressPct_10_2000000 : progressPct 10 2000000 = 20 := by
  rw [progressPct, if_pos (by norm_num)]
  have h : ((2000000 : Nat) : ℚ) / 1000000 / 10 * 100 = 20 := by norm_num
  rw [h, min_eq_right (by norm_num)]

theorem progressPct_10_1000000 : progressPct 10 1000000 = 10 := by
  rw [progressPct, if_pos (by norm_num)]
  have h : ((1000000 : Nat) : ℚ) / 1000000 / 10 * 100 = 10 := by norm_num
  rw [h, min_eq_right (by norm_num)]

theorem delivered_single_20 :
    (executeFfmpeg (some 10) ["out_time_ms=2000000"] 0 1).1 = [20] := by
  have h1 : parseOutTimeMs "out_time_ms=2000000" = some 2000000 := by decide
  simp [executeFfmpeg, deliveredProgress, h1, progressPct_10_2000000]

theorem delivered_dec_pair :
    (executeFfmpeg (some 10) ["out_time_ms=2000000", "out_time_ms=1000000"] 0 1).1
      = [20, 10] := by
  have h1 : parseOutTimeMs "out_time_ms=2000000" = some 2000000 := by decide
  have h2 : parseOutTimeMs "out_time_ms=1000000" = some 1000000 := by decide
  simp [executeFfmpeg, deliveredProgress, h1, h2,
    progressPct_10_2000000, progressPct_10_1000000]

/-- Witness for C4: duration 10 s, one progress line at 2 s, delivered 20 %. -/
theorem progress_pct_formula_witness :
    ((0 < (10 : ℚ) →
        progressPct 10 2000000 = min 100 ((2000000 : ℚ) / 1000000 / 10 * 100))
      ∧ ((10 : ℚ) ≤ 0 → progressPct 10 2000000 = 0))
    ∧ 0 ≤ (20 : ℚ) ∧ (20 : ℚ) ≤ 100 :=
  progress_pct_formula 10 ["out_time_ms=2000000"] 0 1 2000000 20
    (by rw [delivered_single_20]; exact List.mem_singleton.mpr rfl)

/-! ## Claim C6 (corrected): monotonicity of delivered percentages -/

/-- C6 counterexample: the code does not enforce monotonicity — for a 10 s
input, progress lines whose `out_time_ms` markers decrease (2 s then 1 s)
deliver the decreasing sequence [20, 10]. -/
theorem progress_not_monotone_counterexample :
    ¬ List.Chain' (· ≤ ·)
      ((executeFfmpeg (some 10)
        ["out_time_ms=2000000", "out_time_ms=1000000"] 0 1).1) := by
  rw [delivered_dec_pair]
  simp only [List.chain'_cons, List.chain'_singleton, and_true]
  norm_num

theorem progressPct_mono (total : ℚ) {a b : Nat} (hab : a ≤ b) :
    progressPct total a ≤ progressPct total b := by
  by_cases ht : 0 < total
  · rw [progressPct, if_pos ht, progressPct, if_pos ht]
    refine min_le_min le_rfl ?_
    gcongr
  · rw [progressPct, if_neg ht, progressPct, if_neg ht]

/-- **C6 (amended).** The marker-to-percentage map is monotone, so the
delivered percentages are non-decreasing provided the `out_time_ms` markers
parsed from the process output are non-decreasing (which the code itself
does not enforce). -/
theorem progress_monotone_of_markers_monotone (total : ℚ) (lines : List String)
    (rc : Int) (el : ℚ)
    (h : List.Chain' (· ≤ ·) (lines.filterMap parseOutTimeMs)) :
    List.Chain' (· ≤ ·) ((executeFfmpeg (some total) lines rc el).1) := by
  have hmap : (executeFfmpeg (some total) lines rc el).1
      = (lines.filterMap parseOutTimeMs).map (progressPct total) := by
    simp only [executeFfmpeg, deliveredProgress]
    rw [List.map_filterMap]
  rw [hmap, List.chain'_map]
  exact List.Chain'.imp (fun a b hab => progressPct_mono total hab) h

/-- Witness for the amended C6: increasing markers deliver [10, 20]. -/
theorem progress_monotone_of_markers_monotone_witness :
    List.Chain' (· ≤ ·)
      ((executeFfmpeg (some 10)
        ["out_time_ms=1000000", "out_time_ms=2000000"] 0 1).1) :=
  progress_monotone_of_markers_monotone 10 _ 0 1 (by
    rw [show List.filterMap parseOutTimeMs
        ["out_time_ms=1000000", "out_time_ms=2000000"] = [1000000, 2000000] from by decide]
    simp only [List.chain'_cons, List.chain'_singleton, and_true]
    omega)

/-! ## Claim C8: success is decided solely by the exit status -/

/-- **C8.** Once the probe has succeeded and the process is spawned, the
handler result reports success iff the process exit status is 0, and the
result is independent of the progress lines observed. -/
theorem success_iff_exit_zero (d : ℚ) (lines lines' : List String) (rc : Int)
    (el : ℚ) :
    ((executeFfmpeg (some d) lines rc el).2.success = true ↔ rc = 0)
    ∧ (executeFfmpeg (some d) lines rc el).2 = (executeFfmpeg (some d) lines' rc el).2 := by
  constructor
  · by_cases h : rc = 0 <;> simp [executeFfmpeg, h]
  · by_cases h : rc = 0 <;> simp [executeFfmpeg, h]

/-- Witness for C8 at concrete runs. -/
theorem success_iff_exit_zero_witness :
    ((executeFfmpeg (some 10) ["out_time_ms=1000000"] 0 1).2.success = true ↔ (0 : Int) = 0)
    ∧ (executeFfmpeg (some 10) ["out_time_ms=1000000"] 0 1).2
        = (executeFfmpeg (some 10) [] 0 1).2 :=
  success_iff_exit_zero 10 ["out_time_ms=1000000"] [] 0 1


/-! ## Path lemmas for the output-path claims -/

theorem dropWhile_head_not {α} {p : α → Bool} {l : List α} {c : α} {cs : List α}
    (h : l.dropWhile p = c :: cs) : p c = false := by
  induction l with
  | nil => simp at h
  | cons a l ih =>
    rw [List.dropWhile_cons] at h
    by_cases hpa : p a = true
    · rw [if_pos hpa] at h
      exact ih h
    · rw [if_neg hpa] at h
      injection h with h1 _
      subst h1
      cases hpc : p a
      · rfl
      · exact absurd hpc hpa

theorem pathNameL_no_slash (s : List Char) : ∀ c ∈ pathNameL s, c ≠ '/' := by
  intro c hc
  unfold pathNameL nameRevL at hc
  rw [List.mem_reverse] at hc
  have := List.mem_takeWhile_imp hc
  simpa using this

theorem pathDirL_append_name (s x : List Char) (hx : ∀ c ∈ x, c ≠ '/') :
    pathNameL (pathDirL s ++ x) = x := by
  unfold pathNameL nameRevL pathDirL
  rw [List.reverse_append, List.reverse_reverse]
  rw [List.takeWhile_append_of_pos
    (by intro a ha; rw [List.mem_reverse] at ha; simpa using hx a ha)]
  have hrest : (s.reverse.dropWhile (fun c => c ≠ '/')).takeWhile (fun c => c ≠ '/')
      = [] := by
    rcases hd : s.reverse.dropWhile (fun c => c ≠ '/') with _ | ⟨c, cs⟩
    · rfl
    · rw [List.takeWhile_cons_of_neg (by simp [dropWhile_head_not hd])]
  rw [hrest, List.append_nil, List.reverse_reverse]

theorem pathSuffixOfNameL_stem_ext (stem tail : List Char)
    (hstem : stem ≠ []) (htail : tail ≠ []) (hdot : '.' ∉ tail) :
    pathSuffixOfNameL (stem ++ '.' :: tail) = '.' :: tail := by
  have hall : ∀ a ∈ tail.reverse, (fun c => decide (c ≠ '.')) a = true := by
    intro a ha
    rw [List.mem_reverse] at ha
    simp only [decide_eq_true_eq]
    exact fun he => hdot (he ▸ ha)
  have htw : (stem ++ '.' :: tail).reverse.takeWhile (fun c => c ≠ '.')
      = tail.reverse := by
    rw [List.reverse_append, List.reverse_cons, List.append_assoc,
      List.singleton_append]
    rw [List.takeWhile_append_of_pos hall, List.takeWhile_cons_of_neg (by simp)]
    exact List.append_nil _
  have hdw : (stem ++ '.' :: tail).reverse.dropWhile (fun c => c ≠ '.')
      = '.' :: stem.reverse := by
    rw [List.reverse_append, List.reverse_cons, List.append_assoc,
      List.singleton_append]
    rw [List.dropWhile_append_of_pos hall, List.dropWhile_cons, if_neg (by simp)]
  have h1 : ¬ (('.' :: stem.reverse).length ≤ 1) := by
    simp only [List.length_cons, List.length_reverse]
    have := List.length_pos.mpr hstem
    omega
  have h2 : tail.reverse ≠ [] := by simpa using htail
  unfold pathSuffixOfNameL
  rw [htw, hdw, if_neg (not_or.mpr ⟨h1, h2⟩), List.reverse_reverse]

theorem pathStemOfNameL_ne_nil (n : List Char) (hn : n ≠ []) :
    pathStemOfNameL n ≠ [] := by
  unfold pathStemOfNameL
  split_ifs with h
  · exact hn
  · rw [not_or] at h
    obtain ⟨h1, _⟩ := h
    intro he
    have hlen : ((n.reverse.dropWhile (fun c => c ≠ '.')).tail).reverse.length = 0 := by
      rw [he]
      rfl
    rw [List.length_reverse, List.length_tail] at hlen
    omega

theorem mem_of_mem_pathStemOfNameL (n : List Char) (c : Char)
    (hc : c ∈ pathStemOfNameL n) : c ∈ n := by
  unfold pathStemOfNameL at hc
  split_ifs at hc
  · exact hc
  · rw [List.mem_reverse] at hc
    have h1 := (List.tail_sublist _).subset hc
    have h2 := (List.dropWhile_sublist _).subset h1
    rw [List.mem_reverse] at h2
    exact h2


theorem pathSuffix_pathWithSuffix (s ext : String)
    (hname : pathNameL s.data ≠ [])
    (hext : ext = ".webp" ∨ ext = ".jpg" ∨ ext = ".png") :
    pathSuffix (pathWithSuffix s ext) = ext := by
  have hx : ∀ c ∈ pathStemOfNameL (pathNameL s.data) ++ ext.data, c ≠ '/' := by
    intro c hc
    rcases List.mem_append.mp hc with h | h
    · exact pathNameL_no_slash s.data c (mem_of_mem_pathStemOfNameL _ c h)
    · rcases hext with rfl | rfl | rfl
      · exact (show ∀ c ∈ (".webp" : String).data, c ≠ '/' by decide) c h
      · exact (show ∀ c ∈ (".jpg" : String).data, c ≠ '/' by decide) c h
      · exact (show ∀ c ∈ (".png" : String).data, c ≠ '/' by decide) c h
  have h1 : pathNameL (pathDirL s.data ++ (pathStemOfNameL (pathNameL s.data) ++ ext.data))
      = pathStemOfNameL (pathNameL s.data) ++ ext.data := pathDirL_append_name _ _ hx
  have h2 : pathSuffixOfNameL (pathStemOfNameL (pathNameL s.data) ++ ext.data)
      = ext.data := by
    have hsne := pathStemOfNameL_ne_nil _ hname
    rcases hext with rfl | rfl | rfl
    · exact pathSuffixOfNameL_stem_ext _ ['w', 'e', 'b', 'p'] hsne (by decide) (by decide)
    · exact pathSuffixOfNameL_stem_ext _ ['j', 'p', 'g'] hsne (by decide) (by decide)
    · exact pathSuffixOfNameL_stem_ext _ ['p', 'n', 'g'] hsne (by decide) (by decide)
  rw [String.ext_iff]
  show pathSuffixOfNameL (pathNameL
    (pathDirL s.data ++ pathStemOfNameL (pathNameL s.data) ++ ext.data)) = ext.data
  rw [List.append_assoc, h1, h2]

theorem thumbCorrectExt_cases (fmt : String) :
    thumbCorrectExt fmt = ".webp" ∨ thumbCorrectExt fmt = ".jpg"
      ∨ thumbCorrectExt fmt = ".png" := by
  unfold thumbCorrectExt
  split_ifs <;> simp

theorem strToLower_thumbCorrectExt (fmt : String) :
    strToLower (thumbCorrectExt fmt) = thumbCorrectExt fmt := by
  rcases thumbCorrectExt_cases fmt with h | h | h <;> rw [h] <;> decide

theorem pathName_ne_empty {s : String} (h : pathName s ≠ "") :
    pathNameL s.data ≠ [] := by
  intro he
  apply h
  unfold pathName
  rw [he]

theorem getLast?_append_four (l : List String) (a b c x : String) :
    (l ++ [a, b, c, x]).getLast? = some x := by
  rw [show [a, b, c, x] = [a, b, c] ++ [x] from rfl, ← List.append_assoc,
    List.getLast?_concat]


/-! ## Claim C9 (corrected): output-path derivation in `Job.__init__` -/

/-- C9 counterexample: a caller-supplied *empty* output file is not stored
unchanged: Python `or` treats it as absent and a derived path is stored. -/
theorem empty_output_file_not_kept :
    (mkJob 0 "a.mp4" "transcode" [] (some "") 0 "20250101_000000").outputFile ≠ "" := by
  decide

/-- **C9 (amended).** A caller-supplied non-empty output file is stored
unchanged (an empty string is treated as absent); otherwise the output path
is deterministically derived from the input path, the operation name and
the creation timestamp, with extension taken from the operation's
parameters: the (normalised) `image_format` (default webp) for
`generate_thumbnail`, `.gif` for `create_gif`, the `audio_format` parameter
(default mp3) for `extract_audio`, and the input file's own suffix for
every other operation. -/
theorem output_path_derivation (id : Nat) (input op ts o : String)
    (params : List (String × String)) (cAt : Nat) (ho : o ≠ "") :
    (mkJob id input op params (some o) cAt ts).outputFile = o
    ∧ (mkJob id input op params none cAt ts).outputFile
        = generateOutputPath params input op ts
    ∧ (op = "generate_thumbnail" → generateOutputPath params input op ts
        = pathParentJoin input (pathStem input ++ "_" ++ op ++ "_" ++ ts ++ "."
            ++ thumbFormatExt (dictGet params "image_format" "webp")))
    ∧ (params.lookup "image_format" = none →
        generateOutputPath params input "generate_thumbnail" ts
        = pathParentJoin input (pathStem input ++ "_" ++ "generate_thumbnail" ++ "_"
            ++ ts ++ "." ++ "webp"))
    ∧ (op = "create_gif" → generateOutputPath params input op ts
        = pathParentJoin input (pathStem input ++ "_" ++ op ++ "_" ++ ts ++ ".gif"))
    ∧ (op = "extract_audio" → generateOutputPath params input op ts
        = pathParentJoin input (pathStem input ++ "_" ++ op ++ "_" ++ ts ++ "."
            ++ dictGet params "audio_format" "mp3"))
    ∧ (op ≠ "generate_thumbnail" → op ≠ "create_gif" → op ≠ "extract_audio" →
        generateOutputPath params input op ts
        = pathParentJoin input (pathStem input ++ "_" ++ op ++ "_" ++ ts
            ++ pathSuffix input)) := by
  refine ⟨?_, rfl, ?_, ?_, ?_, ?_, ?_⟩
  · simp [mkJob, ho]
  · rintro rfl
    rfl
  · intro h
    have hd : dictGet params "image_format" "webp" = "webp" := by simp [dictGet, h]
    have ht : thumbFormatExt "webp" = "webp" := by decide
    simp [generateOutputPath, hd, ht]
  · rintro rfl
    rfl
  · rintro rfl
    rfl
  · intro h1 h2 h3
    simp [generateOutputPath, h1, h2, h3]

/-- Witness for the amended C9: a thumbnail job with `image_format` "JPEG"
keeps a non-empty caller-supplied output unchanged, and the derived path
uses the mapped extension. -/
theorem output_path_derivation_witness :
    (mkJob 7 "clips/movie.mkv" "generate_thumbnail" [("image_format", "JPEG")]
        (some "thumbs/out.png") 0 "20250101_120000").outputFile = "thumbs/out.png"
    ∧ generateOutputPath [("image_format", "JPEG")] "clips/movie.mkv"
        "generate_thumbnail" "20250101_120000"
      = pathParentJoin "clips/movie.mkv" (pathStem "clips/movie.mkv" ++ "_"
          ++ "generate_thumbnail" ++ "_" ++ "20250101_120000" ++ "."
          ++ thumbFormatExt (dictGet [("image_format", "JPEG")] "image_format" "webp")) := by
  have h := output_path_derivation 7 "clips/movie.mkv" "generate_thumbnail"
    "20250101_120000" "thumbs/out.png" [("image_format", "JPEG")] 0 (by decide)
  exact ⟨h.1, h.2.2.1 rfl⟩

/-! ## Claim C10: thumbnail extension correction -/

theorem correctThumbnailExtension_eq_ite (outp fmt : String) :
    correctThumbnailExtension outp fmt
      = if strToLower (pathSuffix outp) ≠ thumbCorrectExt fmt then
          pathWithSuffix outp (thumbCorrectExt fmt)
        else outp := rfl

theorem correctThumbnailExtension_suffix (outp fmt : String)
    (hname : pathName outp ≠ "") :
    strToLower (pathSuffix (correctThumbnailExtension outp fmt))
      = thumbCorrectExt fmt := by
  rw [correctThumbnailExtension_eq_ite]
  by_cases hd : strToLower (pathSuffix outp) ≠ thumbCorrectExt fmt
  · rw [if_pos hd, pathSuffix_pathWithSuffix outp _ (pathName_ne_empty hname)
      (thumbCorrectExt_cases fmt), strToLower_thumbCorrectExt]
  · rw [if_neg hd]
    exact not_ne_iff.mp hd

theorem correctThumbnailExtension_ne (outp fmt : String)
    (hname : pathName outp ≠ "")
    (hdis : strToLower (pathSuffix outp) ≠ thumbCorrectExt fmt) :
    correctThumbnailExtension outp fmt ≠ outp := by
  rw [correctThumbnailExtension_eq_ite, if_pos hdis]
  intro he
  apply hdis
  have h2 : pathSuffix outp = thumbCorrectExt fmt := by
    rw [← he]
    exact pathSuffix_pathWithSuffix outp _ (pathName_ne_empty hname)
      (thumbCorrectExt_cases fmt)
  rw [h2, strToLower_thumbCorrectExt]

theorem processJobRun_outputFile (j : Job) (t t' : Nat) (res : Bool)
    (ups : List ℚ) (oc : Except String OpResult) :
    (processJobRun j t t' res ups oc).outputFile = j.outputFile := by
  cases res
  · rfl
  · rcases oc with e | r
    · show (applyProgressUpdates { j with status := .processing, startedAt := some t }
        ups).outputFile = _
      rw [applyProgressUpdates_outputFile]
    · cases hr : r.success
      · have hout : (processJobRun j t t' true ups (Except.ok r)).outputFile
            = (applyProgressUpdates { j with status := .processing, startedAt := some t }
                ups).outputFile := by
          simp [processJobRun, hr]
        rw [hout, applyProgressUpdates_outputFile]
      · have hout : (processJobRun j t t' true ups (Except.ok r)).outputFile
            = (applyProgressUpdates { j with status := .processing, startedAt := some t }
                ups).outputFile := by
          simp [processJobRun, hr]
        rw [hout, applyProgressUpdates_outputFile]

/-- **C10.** The output path handed to the external process by
`generate_thumbnail` is the caller's `output_path` with its extension
corrected to match `image_format` (`.webp`, `.jpg` or `.png`, default
`.webp`); the job's `output_file` field is never updated by `_process_job`,
so whenever the caller-supplied extension disagrees (case-insensitively)
with `image_format`, the corrected path differs from the recorded
`output_file`. -/
theorem thumbnail_extension_correction
    (inp outp ts size fit fmt : String) (q : Int) (cmd : List String)
    (j : Job) (t t' : Nat) (res : Bool) (ups : List ℚ) (oc : Except String OpResult)
    (hcmd : generateThumbnailCmd inp outp ts size fit fmt q = some cmd)
    (hname : pathName outp ≠ "")
    (hdis : strToLower (pathSuffix outp) ≠ thumbCorrectExt fmt) :
    cmd.getLast? = some (correctThumbnailExtension outp fmt)
    ∧ (processJobRun j t t' res ups oc).outputFile = j.outputFile
    ∧ correctThumbnailExtension outp fmt ≠ outp
    ∧ strToLower (pathSuffix (correctThumbnailExtension outp fmt)) = thumbCorrectExt fmt
    ∧ (thumbCorrectExt fmt = ".webp" ∨ thumbCorrectExt fmt = ".jpg"
        ∨ thumbCorrectExt fmt = ".png") := by
  refine ⟨?_, processJobRun_outputFile j t t' res ups oc,
    correctThumbnailExtension_ne outp fmt hname hdis,
    correctThumbnailExtension_suffix outp fmt hname,
    thumbCorrectExt_cases fmt⟩
  rcases hps : parseSize size with _ | wh
  · rw [generateThumbnailCmd, hps] at hcmd
    cases hcmd
  · rw [generateThumbnailCmd, hps] at hcmd
    obtain rfl := (Option.some.inj hcmd).symm
    exact getLast?_append_four _ _ _ _ _

/-- Witness for C10: output "thumbs/pic.jpg" with format "webp" is written
to "thumbs/pic.webp", which differs from the recorded output file. -/
theorem thumbnail_extension_correction_witness :
    ((generateThumbnailCmd "in.mp4" "thumbs/pic.jpg" "00:00:01" "1280x720"
        "cover" "webp" 75).getD []).getLast?
      = some (correctThumbnailExtension "thumbs/pic.jpg" "webp")
    ∧ (processJobRun sampleJob 1 2 true [] (Except.error "e")).outputFile
        = sampleJob.outputFile
    ∧ correctThumbnailExtension "thumbs/pic.jpg" "webp" ≠ "thumbs/pic.jpg"
    ∧ strToLower (pathSuffix (correctThumbnailExtension "thumbs/pic.jpg" "webp"))
        = thumbCorrectExt "webp"
    ∧ (thumbCorrectExt "webp" = ".webp" ∨ thumbCorrectExt "webp" = ".jpg"
        ∨ thumbCorrectExt "webp" = ".png") :=
  thumbnail_extension_correction "in.mp4" "thumbs/pic.jpg" "00:00:01" "1280x720"
    "cover" "webp" 75
    ((generateThumbnailCmd "in.mp4" "thumbs/pic.jpg" "00:00:01" "1280x720"
        "cover" "webp" 75).getD [])
    sampleJob 1 2 true [] (Except.error "e")
    (by decide) (by decide) (by decide)
